import Mathlib

/-!
Verification development for the stash-rule repository.

The Go sources are shallowly embedded:
* dynamic YAML/JSON values (`map[string]interface{}`, `[]interface{}`, scalars)
  become the inductive `Value`; Go maps are represented as association lists
  with unique keys, map assignment as replace-or-append insertion;
* pure functions (`DeepMergeMap`, `classifyProxyName`, the URI parsers) become
  Lean functions over that representation;
* the Redis-backed store becomes an explicit `CacheStore` value threaded
  through the refresh/build functions, with fetch and save outcomes supplied
  by oracle functions (one concurrent worker per URL in Go writes independent
  keys and results are aggregated in normalized-URL order, so the sequential
  fold is an admissible model);
* Go `strings.ToLower` / regexp `(?i)` case folding is modelled on ASCII
  letters (sufficient for the ASCII region codes; non-ASCII characters
  pass through unchanged).
-/

namespace StashRule

/-! ## Character helpers (ASCII case folding, Go whitespace) -/

/-- Lower-case an ASCII letter, leave every other character unchanged
(models Go case handling on the characters relevant to this code base). -/
def lowerAscii (c : Char) : Char :=
  if 'A' ≤ c ∧ c ≤ 'Z' then Char.ofNat (c.toNat + 32) else c

/-- `[a-z0-9]` under case-insensitive matching, i.e. ASCII alphanumeric;
the complement is the token boundary class of `classifyProxyName`'s regex. -/
def isAlphaNum (c : Char) : Bool :=
  ('a' ≤ c && c ≤ 'z') || ('A' ≤ c && c ≤ 'Z') || ('0' ≤ c && c ≤ '9')

/-- ASCII decimal digit. -/
def isDigitCh (c : Char) : Bool :=
  '0' ≤ c && c ≤ '9'

/-- Whitespace as trimmed by Go `strings.TrimSpace` (Latin-1 range). -/
def isSpaceGo (c : Char) : Bool :=
  c = ' ' || c = '\t' || c = '\n' || c.toNat = 11 || c.toNat = 12 ||
    c = '\r' || c.toNat = 133 || c.toNat = 160

/-! ## List and string helpers -/

/-- Drop Go whitespace on both ends of a character list. -/
def trimChars (l : List Char) : List Char :=
  ((l.dropWhile isSpaceGo).reverse.dropWhile isSpaceGo).reverse

/-- `strings.TrimSpace`. -/
def trimString (s : String) : String :=
  String.mk (trimChars s.toList)

/-- Map `lowerAscii` over a string, modelling `strings.ToLower`. -/
def lowerStr (s : List Char) : List Char :=
  s.map lowerAscii

/-! ## Dynamic values

`Value` models the dynamic values the Go code passes around as
`interface{}`: YAML/JSON scalars, `[]interface{}` sequences and
`map[string]interface{}` mappings (association lists, unique keys). -/

inductive Value where
  | vnull : Value
  | vbool : Bool → Value
  | vint : Int → Value
  | vstr : String → Value
  | vseq : List Value → Value
  | vmap : List (String × Value) → Value

/-- Association-list lookup: the value bound to `k`, if any. -/
def lookupVal (m : List (String × Value)) (k : String) : Option Value :=
  match m with
  | [] => none
  | (k', v) :: rest => if k' = k then some v else lookupVal rest k

/-- Go map assignment `m[k] = v`: replace the existing binding in place,
or append a fresh one. -/
def insertVal (m : List (String × Value)) (k : String) (v : Value) :
    List (String × Value) :=
  match m with
  | [] => [(k, v)]
  | (k', v') :: rest =>
    if k' = k then (k', v) :: rest else (k', v') :: insertVal rest k v

/-- Keys of an association list. -/
def keysOf (m : List (String × Value)) : List String :=
  m.map Prod.fst

mutual

/-- `cloneValue` from the config synthesizer: deep-copy maps and slices,
share scalars. -/
def cloneValue : Value → Value
  | Value.vnull => Value.vnull
  | Value.vbool b => Value.vbool b
  | Value.vint n => Value.vint n
  | Value.vstr s => Value.vstr s
  | Value.vseq l => Value.vseq (cloneList l)
  | Value.vmap m => Value.vmap (cloneEntries m)

/-- Clone every element of a sequence. -/
def cloneList : List Value → List Value
  | [] => []
  | v :: rest => cloneValue v :: cloneList rest

/-- Clone every binding of a mapping. -/
def cloneEntries : List (String × Value) → List (String × Value)
  | [] => []
  | (k, v) :: rest => (k, cloneValue v) :: cloneEntries rest

end

/-- The copy loop at the top of `DeepMergeMap`:
`for key, baseValue := range base { result[key] = cloneValue(baseValue) }`. -/
def copyMap (m : List (String × Value)) : List (String × Value) :=
  m.foldl (fun acc kv => insertVal acc kv.1 (cloneValue kv.2)) []

/-- `mergeSlices`: override items first (cloned), then base items (cloned). -/
def mergeSlices (base override : List Value) : List Value :=
  cloneList override ++ cloneList base

mutual

/-- The per-key dispatch of `DeepMergeMap`'s override loop: if the current
value and the override value are both mappings, merge recursively (the
recursive `DeepMergeMap` call is `mergeInto (copyMap cm) om`, its very
definition); if both are sequences, concatenate; otherwise a clone of the
override value replaces the current one. -/
def mergeResolve : Option Value → Value → Value
  | some (Value.vmap cm), Value.vmap om =>
    Value.vmap (mergeInto (copyMap cm) om)
  | some (Value.vseq cs), Value.vseq os =>
    Value.vseq (mergeSlices cs os)
  | _, v => cloneValue v
termination_by _ v => sizeOf v
decreasing_by
  all_goals simp_wf

/-- The override loop of `DeepMergeMap`, acting on the already-copied
result map `acc`. -/
def mergeInto (acc : List (String × Value)) :
    List (String × Value) → List (String × Value)
  | [] => acc
  | (k, v) :: rest =>
    mergeInto (insertVal acc k (mergeResolve (lookupVal acc k) v)) rest
termination_by l => sizeOf l
decreasing_by
  all_goals simp_wf
  all_goals omega

end

/-- `DeepMergeMap base override`: clone `base`, then fold the override in. -/
def DeepMergeMap (base override : List (String × Value)) :
    List (String × Value) :=
  mergeInto (copyMap base) override

/-! ## Basic lemmas about the association-list operations -/

mutual

theorem cloneValue_id : ∀ v : Value, cloneValue v = v
  | Value.vnull => by rw [cloneValue]
  | Value.vbool _ => by rw [cloneValue]
  | Value.vint _ => by rw [cloneValue]
  | Value.vstr _ => by rw [cloneValue]
  | Value.vseq l => by rw [cloneValue]; exact congrArg Value.vseq (cloneList_id l)
  | Value.vmap m => by rw [cloneValue]; exact congrArg Value.vmap (cloneEntries_id m)

theorem cloneList_id : ∀ l : List Value, cloneList l = l
  | [] => by rw [cloneList]
  | v :: rest => by
    rw [cloneList, cloneValue_id v, cloneList_id rest]

theorem cloneEntries_id : ∀ m : List (String × Value), cloneEntries m = m
  | [] => by rw [cloneEntries]
  | (k, v) :: rest => by
    rw [cloneEntries, cloneValue_id v, cloneEntries_id rest]

end

theorem lookupVal_eq_none (m : List (String × Value)) (k : String)
    (h : k ∉ keysOf m) : lookupVal m k = none := by
  induction m with
  | nil => rfl
  | cons kv rest ih =>
    obtain ⟨k', v⟩ := kv
    simp only [keysOf, List.map_cons, List.mem_cons] at h
    push_neg at h
    simp only [lookupVal, if_neg (fun hh : k' = k => h.1 hh.symm),
      ih (by simpa [keysOf] using h.2)]

theorem lookup_insert_self (m : List (String × Value)) (k : String) (v : Value) :
    lookupVal (insertVal m k v) k = some v := by
  induction m with
  | nil => simp [insertVal, lookupVal]
  | cons kv rest ih =>
    obtain ⟨k', v'⟩ := kv
    by_cases hk : k' = k
    · simp [insertVal, hk, lookupVal]
    · simp [insertVal, hk, lookupVal, ih]

theorem lookup_insert_ne (m : List (String × Value)) (k k' : String) (v : Value)
    (h : k' ≠ k) : lookupVal (insertVal m k v) k' = lookupVal m k' := by
  induction m with
  | nil =>
    simp only [insertVal, lookupVal]
    rw [if_neg (fun hh : k = k' => h hh.symm)]
  | cons kv rest ih =>
    obtain ⟨k₀, v₀⟩ := kv
    by_cases hk : k₀ = k
    · subst hk
      simp only [insertVal, if_pos rfl, lookupVal,
        if_neg (fun hh : k₀ = k' => h hh.symm)]
    · simp only [insertVal, if_neg hk, lookupVal]
      by_cases hk' : k₀ = k'
      · simp [hk']
      · simp [hk', ih]

theorem insertVal_of_notMem (m : List (String × Value)) (k : String) (v : Value)
    (h : k ∉ keysOf m) : insertVal m k v = m ++ [(k, v)] := by
  induction m with
  | nil => rfl
  | cons kv rest ih =>
    obtain ⟨k', v'⟩ := kv
    simp only [keysOf, List.map_cons, List.mem_cons] at h
    push_neg at h
    simp only [insertVal, if_neg (fun hh : k' = k => h.1 hh.symm),
      List.cons_append, ih (by simpa [keysOf] using h.2)]

theorem keysOf_append (m₁ m₂ : List (String × Value)) :
    keysOf (m₁ ++ m₂) = keysOf m₁ ++ keysOf m₂ := by
  simp [keysOf]

/-- The copy loop is the identity on maps with distinct keys
(clones are equal to the originals in this model). -/
theorem copyMap_eq_self (m : List (String × Value))
    (h : (keysOf m).Nodup) : copyMap m = m := by
  have general : ∀ (l acc : List (String × Value)),
      (keysOf (acc ++ l)).Nodup →
      l.foldl (fun a kv => insertVal a kv.1 kv.2) acc = acc ++ l := by
    intro l
    induction l with
    | nil => intro acc _; simp
    | cons kv rest ih =>
      intro acc hnd
      obtain ⟨k, v⟩ := kv
      have hnotin : k ∉ keysOf acc := by
        rw [keysOf_append] at hnd
        intro hmem
        exact (List.nodup_append.mp hnd).2.2 hmem (by simp [keysOf])
      rw [List.foldl_cons]
      have step : insertVal acc k v = acc ++ [(k, v)] :=
        insertVal_of_notMem acc k v hnotin
      rw [step, ih (acc ++ [(k, v)]) (by simpa [keysOf, List.append_assoc] using hnd)]
      simp
  unfold copyMap
  simp only [cloneValue_id]
  simpa using general m [] (by simpa using h)

/-! ## Characterizing the deep merge (claims C2 and C5) -/

/-- Key-wise behaviour of the override loop, assuming the override map has
distinct keys (Go maps always do). -/
theorem lookup_mergeInto (o : List (String × Value)) :
    ∀ (acc : List (String × Value)) (k : String), (keysOf o).Nodup →
    lookupVal (mergeInto acc o) k =
      match lookupVal o k with
      | none => lookupVal acc k
      | some v => some (mergeResolve (lookupVal acc k) v) := by
  induction o with
  | nil => intro acc k _; simp [mergeInto, lookupVal]
  | cons kv rest ih =>
    intro acc k hnd
    obtain ⟨k', v'⟩ := kv
    simp only [keysOf, List.map_cons, List.nodup_cons] at hnd
    rw [mergeInto]
    rw [ih _ k (by simpa [keysOf] using hnd.2)]
    by_cases hk : k' = k
    · subst hk
      have hrest : lookupVal rest k' = none :=
        lookupVal_eq_none rest k' (by simpa [keysOf] using hnd.1)
      simp [lookupVal, hrest, lookup_insert_self]
    · simp only [lookupVal, if_neg hk]
      rw [lookup_insert_ne _ _ _ _ (fun hh => hk hh.symm)]

/-- The merge behaviour as §4.5 of the specification words it: keys present
only in the base are kept, keys present only in the overlay are added, two
mappings merge recursively, two sequences concatenate overlay-first, and
otherwise the overlay value replaces the base value. -/
def deepMergeSpec : Option Value → Option Value → Option Value
  | bv, none => bv
  | some (Value.vmap bm), some (Value.vmap om) =>
    some (Value.vmap (DeepMergeMap bm om))
  | some (Value.vseq bs), some (Value.vseq os) =>
    some (Value.vseq (os ++ bs))
  | _, some ov => some ov

theorem mergeResolve_spec (cur : Option Value) (v : Value) :
    some (mergeResolve cur v) = deepMergeSpec cur (some v) := by
  cases cur with
  | none => cases v <;> simp [mergeResolve, cloneValue_id, deepMergeSpec]
  | some c =>
    cases c <;> cases v <;>
      simp [mergeResolve, cloneValue_id, deepMergeSpec, mergeSlices,
        cloneList_id, DeepMergeMap]

/-- Example mapping `{a:[1,2], b:{x:1}}` from the specification. -/
def exMergeBase : List (String × Value) :=
  [("a", Value.vseq [Value.vint 1, Value.vint 2]),
   ("b", Value.vmap [("x", Value.vint 1)])]

/-- Example overlay `{a:[3], b:{y:2}, c:5}` from the specification. -/
def exMergeOverlay : List (String × Value) :=
  [("a", Value.vseq [Value.vint 3]),
   ("b", Value.vmap [("y", Value.vint 2)]),
   ("c", Value.vint 5)]

/-- Expected merge result `{a:[3,1,2], b:{x:1,y:2}, c:5}`. -/
def exMergeResult : List (String × Value) :=
  [("a", Value.vseq [Value.vint 3, Value.vint 1, Value.vint 2]),
   ("b", Value.vmap [("x", Value.vint 1), ("y", Value.vint 2)]),
   ("c", Value.vint 5)]

/-- C2: for maps with distinct keys, `DeepMergeMap` merges key-wise —
both mappings merge recursively, both sequences concatenate with the
overlay's items first and the base's items after (order preserved, no
deduplication), anything else is replaced by the overlay value; and on the
specification's concrete example,
`merge({a:[1,2], b:{x:1}}, {a:[3], b:{y:2}, c:5}) = {a:[3,1,2], b:{x:1,y:2}, c:5}`. -/
theorem deep_merge_keywise_and_example :
    (∀ (base override : List (String × Value)) (k : String),
      (keysOf base).Nodup → (keysOf override).Nodup →
      lookupVal (DeepMergeMap base override) k =
        deepMergeSpec (lookupVal base k) (lookupVal override k)) ∧
    DeepMergeMap exMergeBase exMergeOverlay = exMergeResult := by
  constructor
  · intro base override k hb ho
    unfold DeepMergeMap
    rw [copyMap_eq_self base hb, lookup_mergeInto override base k ho]
    cases hov : lookupVal override k with
    | none => cases hb2 : lookupVal base k <;> simp [deepMergeSpec]
    | some v => exact mergeResolve_spec _ v
  · simp [DeepMergeMap, exMergeBase, exMergeOverlay, exMergeResult, copyMap,
      mergeInto, mergeResolve, insertVal, lookupVal, cloneValue, cloneList,
      cloneEntries, mergeSlices]

/-- Witness for C2: the key-wise description evaluated on the example maps
at key `"a"`. -/
theorem deep_merge_keywise_witness :
    lookupVal (DeepMergeMap exMergeBase exMergeOverlay) "a" =
      deepMergeSpec (lookupVal exMergeBase "a") (lookupVal exMergeOverlay "a") :=
  deep_merge_keywise_and_example.1 exMergeBase exMergeOverlay "a"
    (by simp [exMergeBase, keysOf]) (by simp [exMergeOverlay, keysOf])

/-- C5: merging any base mapping (distinct keys) with an empty overlay
returns the base mapping itself — in this pure embedding the deep copy the
Go code performs is equality, and the merge cannot mutate its inputs. -/
theorem deep_merge_empty_overlay_id (base : List (String × Value))
    (h : (keysOf base).Nodup) : DeepMergeMap base [] = base := by
  unfold DeepMergeMap
  rw [copyMap_eq_self base h, mergeInto]

/-- Witness for C5: the empty-overlay identity on the example base map. -/
theorem deep_merge_empty_overlay_witness :
    DeepMergeMap exMergeBase [] = exMergeBase :=
  deep_merge_empty_overlay_id exMergeBase (by simp [exMergeBase, keysOf])

/-! ## Region classification (`classifyProxyName`, claim C4)

`hasKeyword` embeds `strings.Contains(strings.ToLower(name), keyword)`;
`matchCodeToken` embeds
`regexp (?i)(^|[^a-z0-9])CODE([^a-z0-9]|$) .MatchString(name)`
as an executable scanner over the character list. -/

/-- `startsWithCh pat s`: `pat` is literally a prefix of `s`. -/
def startsWithCh : List Char → List Char → Bool
  | [], _ => true
  | _ :: _, [] => false
  | c :: cs, d :: ds => c = d && startsWithCh cs ds

/-- `strings.Contains`: `pat` occurs as a contiguous substring of `s`. -/
def containsSub (pat : List Char) : List Char → Bool
  | [] => pat.isEmpty
  | c :: rest => startsWithCh pat (c :: rest) || containsSub pat rest

/-- Strip `code` off the front of `s`, comparing case-insensitively
(`(?i)` on ASCII letters); return the remainder on success. -/
def ciStrip : List Char → List Char → Option (List Char)
  | [], s => some s
  | _ :: _, [] => none
  | c :: cs, d :: ds =>
    if lowerAscii d = lowerAscii c then ciStrip cs ds else none

/-- The regex matches at the current position: `code` is here
(case-insensitively) and is followed by end-of-string or a
non-alphanumeric character. -/
def tokHere (code s : List Char) : Bool :=
  match ciStrip code s with
  | none => false
  | some [] => true
  | some (d :: _) => !isAlphaNum d

/-- Scan `s` for a position where the token matches; `bnd` records whether
the previous character (or the start of the string) is a valid boundary. -/
def scanTok (code : List Char) (bnd : Bool) : List Char → Bool
  | [] => false
  | c :: rest => (bnd && tokHere code (c :: rest)) || scanTok code (!isAlphaNum c) rest

/-- `matchCodeToken` from `classifyProxyName`. -/
def matchCodeToken (code name : String) : Bool :=
  scanTok code.toList true name.toList

/-- `hasKeyword` from `classifyProxyName`, applied to the lowered name. -/
def hasKeyword (lower : List Char) (keywords : List String) : Bool :=
  keywords.any (fun kw => containsSub kw.toList lower)

/-- Per-region match flags, the value `classifyProxyName` returns. -/
structure RegionFlags where
  hk : Bool
  tw : Bool
  jp : Bool
  sg : Bool
  us : Bool
  kr : Bool

/-! The keyword literals below reproduce, code point for code point, the
string literals staged in the source's `classifyProxyName` (written with
`\u` escapes because several code points are invisible).  They are a
cp1252/cp1254-style double-encoding corruption of the intended region
flags and native-language keywords: for example the Hong Kong keyword slot
holds U+00E9 U+00A6 U+2122 U+00E6 U+00B8 U+00AF (UTF-8 bytes
`C3 A9 C2 A6 E2 84 A2 C3 A6 C2 B8 C2 AF`) where the intended keyword 香港
would be `E9 A6 99 E6 B8 AF`, and the flag slots hold sequences such as
U+011F U+0178 U+2021 U+00AD … instead of the emoji 🇭🇰. -/

def hkKeywords : List String :=
  ["\u011F\u0178\u2021\u00AD\u011F\u0178\u2021\u00B0",
   "\u00E9\u00A6\u2122\u00E6\u00B8\u00AF", "hong kong"]

def twKeywords : List String :=
  ["\u011F\u0178\u2021\u00B9\u011F\u0178\u2021\u00BC",
   "\u00E5\u00B0\u00E6\u00B9\u00BE", "taiwan"]

def jpKeywords : List String :=
  ["\u011F\u0178\u2021\u00AF\u011F\u0178\u2021\u00B5",
   "\u00E6\u2014\u00A5\u00E6\u0153\u00AC", "japan"]

def sgKeywords : List String :=
  ["\u011F\u0178\u2021\u00B8\u011F\u0178\u2021\u00AC",
   "\u00E6\u2013\u00B0\u00E5\u0160\u00A0\u00E5\u00A1",
   "\u00E7\u2039\u00AE\u00E5\u0178", "\u00E5\u00A1\u00E5\u00BF",
   "singapore"]

def usKeywords : List String :=
  ["\u011F\u0178\u2021\u00BA\u011F\u0178\u2021\u00B8",
   "\u00E7\u00BE\u00E5\u203A\u00BD", "united states", "america"]

def krKeywords : List String :=
  ["\u011F\u0178\u2021\u00B0\u011F\u0178\u2021\u00B7",
   "\u00E9\u0178\u00A9\u00E5\u203A\u00BD", "korea"]

/-- `classifyProxyName`: each region matches on a flag/keyword hit in the
lowered name or on a standalone code token in the original name. -/
def classifyProxyName (name : String) : RegionFlags :=
  let lower := lowerStr name.toList
  { hk := hasKeyword lower hkKeywords || matchCodeToken "HK" name
    tw := hasKeyword lower twKeywords || matchCodeToken "TW" name
    jp := hasKeyword lower jpKeywords || matchCodeToken "JP" name
    sg := hasKeyword lower sgKeywords || matchCodeToken "SG" name ||
      matchCodeToken "SGP" name
    us := hasKeyword lower usKeywords || matchCodeToken "US" name ||
      matchCodeToken "USA" name
    kr := hasKeyword lower krKeywords || matchCodeToken "KR" name }

/-! Specification-side predicates for C4, written as plain existential
decompositions of the name. -/

/-- Some keyword occurs as a contiguous substring of the lowered name. -/
def keywordMatch (keywords : List String) (name : String) : Prop :=
  ∃ kw ∈ keywords, ∃ pre post, lowerStr name.toList = pre ++ kw.toList ++ post

/-- The code occurs in the name, case-insensitively, preceded by the string
start or a non-alphanumeric character and followed by the string end or a
non-alphanumeric character. -/
def tokenOccurs (code name : String) : Prop :=
  ∃ pre tok post : List Char,
    name.toList = pre ++ tok ++ post ∧
    tok.map lowerAscii = code.toList.map lowerAscii ∧
    (pre = [] ∨ ∃ pre₀ c, pre = pre₀ ++ [c] ∧ isAlphaNum c = false) ∧
    (post = [] ∨ ∃ c post₀, post = c :: post₀ ∧ isAlphaNum c = false)

/-- A region matches exactly when a keyword occurs or some region code
occurs as a standalone token. -/
def regionSpec (keywords codes : List String) (name : String) : Prop :=
  keywordMatch keywords name ∨ ∃ code ∈ codes, tokenOccurs code name

theorem startsWithCh_iff (pat : List Char) :
    ∀ s, startsWithCh pat s = true ↔ ∃ rest, s = pat ++ rest := by
  induction pat with
  | nil => intro s; simp [startsWithCh]
  | cons c cs ih =>
    intro s
    cases s with
    | nil => simp [startsWithCh]
    | cons d ds =>
      simp only [startsWithCh, Bool.and_eq_true, decide_eq_true_eq, ih ds,
        List.cons_append, List.cons.injEq]
      constructor
      · rintro ⟨rfl, rest, rfl⟩; exact ⟨rest, rfl, rfl⟩
      · rintro ⟨rest, rfl, rfl⟩; exact ⟨rfl, rest, rfl⟩

theorem containsSub_iff (pat : List Char) :
    ∀ s, containsSub pat s = true ↔ ∃ pre post, s = pre ++ pat ++ post := by
  intro s
  induction s with
  | nil =>
    simp only [containsSub, List.isEmpty_iff]
    constructor
    · rintro rfl; exact ⟨[], [], rfl⟩
    · rintro ⟨pre, post, h⟩
      cases pre <;> cases pat <;> simp_all
  | cons c rest ih =>
    simp only [containsSub, Bool.or_eq_true, startsWithCh_iff, ih]
    constructor
    · rintro (⟨r, h⟩ | ⟨pre, post, rfl⟩)
      · exact ⟨[], r, by simpa using h⟩
      · exact ⟨c :: pre, post, rfl⟩
    · rintro ⟨pre, post, h⟩
      cases pre with
      | nil => exact Or.inl ⟨post, by simpa using h⟩
      | cons p pre' =>
        simp only [List.cons_append, List.cons.injEq] at h
        exact Or.inr ⟨pre', post, h.2⟩

theorem ciStrip_eq_some_iff (code : List Char) :
    ∀ (s rest : List Char), ciStrip code s = some rest ↔
      ∃ tok, s = tok ++ rest ∧ tok.map lowerAscii = code.map lowerAscii := by
  induction code with
  | nil =>
    intro s rest
    simp only [ciStrip, Option.some.injEq]
    constructor
    · rintro rfl; exact ⟨[], by simp⟩
    · rintro ⟨tok, heq, hmap⟩
      have htok : tok = [] := by simpa using hmap
      subst htok; simpa using heq
  | cons c cs ih =>
    intro s rest
    cases s with
    | nil =>
      simp only [ciStrip]
      constructor
      · intro h; cases h
      · rintro ⟨tok, heq, hmap⟩
        have htok : tok = [] := by
          cases tok with
          | nil => rfl
          | cons a b => simp at heq
        subst htok; simp at hmap
    | cons d ds =>
      simp only [ciStrip]
      by_cases hcd : lowerAscii d = lowerAscii c
      · rw [if_pos hcd, ih ds rest]
        constructor
        · rintro ⟨tok', heq, hmap⟩
          exact ⟨d :: tok', by simp [heq], by simp [hmap, hcd]⟩
        · rintro ⟨tok, heq, hmap⟩
          cases tok with
          | nil => simp at hmap
          | cons t ts =>
            simp only [List.cons_append, List.cons.injEq] at heq
            simp only [List.map_cons, List.cons.injEq] at hmap
            exact ⟨ts, heq.2, hmap.2⟩
      · rw [if_neg hcd]
        constructor
        · intro h; cases h
        · rintro ⟨tok, heq, hmap⟩
          cases tok with
          | nil => simp at hmap
          | cons t ts =>
            simp only [List.cons_append, List.cons.injEq] at heq
            simp only [List.map_cons, List.cons.injEq] at hmap
            exact absurd (heq.1 ▸ hmap.1) hcd

theorem tokHere_iff (code s : List Char) :
    tokHere code s = true ↔
      ∃ tok post, s = tok ++ post ∧
        tok.map lowerAscii = code.map lowerAscii ∧
        (post = [] ∨ ∃ c post₀, post = c :: post₀ ∧ isAlphaNum c = false) := by
  unfold tokHere
  cases hstrip : ciStrip code s with
  | none =>
    simp only []
    constructor
    · intro h; cases h
    · rintro ⟨tok, post, heq, hmap, _⟩
      have : ciStrip code s = some post :=
        (ciStrip_eq_some_iff code s post).mpr ⟨tok, heq, hmap⟩
      rw [hstrip] at this; cases this
  | some rest =>
    obtain ⟨tok, heq, hmap⟩ := (ciStrip_eq_some_iff code s rest).mp hstrip
    cases rest with
    | nil =>
      simp only []
      constructor
      · intro _; exact ⟨tok, [], heq, hmap, Or.inl rfl⟩
      · intro _; trivial
    | cons d rest₀ =>
      simp only [Bool.not_eq_eq_eq_not, Bool.not_true]
      constructor
      · intro h
        exact ⟨tok, d :: rest₀, heq, hmap,
          Or.inr ⟨d, rest₀, rfl, h⟩⟩
      · rintro ⟨tok', post', heq', hmap', hbnd⟩
        have hlen : tok'.length = tok.length := by
          have h1 := congrArg List.length hmap
          have h2 := congrArg List.length hmap'
          simp only [List.length_map] at h1 h2
          omega
        have hsplit := List.append_inj (heq'.symm.trans heq) hlen
        rcases hbnd with rfl | ⟨c, post₀, rfl, hc⟩
        · cases hsplit.2
        · have := hsplit.2
          simp only [List.cons.injEq] at this
          rw [← this.1]; exact hc

theorem scanTok_iff (code : List Char) (hcode : code ≠ []) :
    ∀ (s : List Char) (bnd : Bool), scanTok code bnd s = true ↔
      ∃ pre tok post, s = pre ++ tok ++ post ∧
        tok.map lowerAscii = code.map lowerAscii ∧
        ((pre = [] ∧ bnd = true) ∨
          ∃ pre₀ c, pre = pre₀ ++ [c] ∧ isAlphaNum c = false) ∧
        (post = [] ∨ ∃ c post₀, post = c :: post₀ ∧ isAlphaNum c = false) := by
  intro s
  induction s with
  | nil =>
    intro bnd
    simp only [scanTok]
    constructor
    · intro h; cases h
    · rintro ⟨pre, tok, post, heq, hmap, _, _⟩
      exfalso
      have h1 := List.append_eq_nil.mp heq.symm
      have h2 := List.append_eq_nil.mp h1.1
      rw [h2.2] at hmap
      cases code with
      | nil => exact hcode rfl
      | cons a b => simp at hmap
  | cons c rest ih =>
    intro bnd
    simp only [scanTok, Bool.or_eq_true, Bool.and_eq_true]
    rw [tokHere_iff, ih (!isAlphaNum c)]
    constructor
    · rintro (⟨hbnd, tok, post, heq, hmap, hr⟩ |
        ⟨pre', tok, post, heq, hmap, hl, hr⟩)
      · exact ⟨[], tok, post, by simpa using heq, hmap, Or.inl ⟨rfl, hbnd⟩, hr⟩
      · refine ⟨c :: pre', tok, post, by simp [heq], hmap, ?_, hr⟩
        rcases hl with ⟨rfl, hb⟩ | ⟨pre₀, c', rfl, hc'⟩
        · exact Or.inr ⟨[], c, by simp, by simpa using hb⟩
        · exact Or.inr ⟨c :: pre₀, c', by simp, hc'⟩
    · rintro ⟨pre, tok, post, heq, hmap, hl, hr⟩
      cases pre with
      | nil =>
        rcases hl with ⟨_, hbnd⟩ | ⟨pre₀, c', habs, _⟩
        · exact Or.inl ⟨hbnd, tok, post, by simpa using heq, hmap, hr⟩
        · simp at habs
      | cons p pre' =>
        right
        simp only [List.cons_append, List.cons.injEq] at heq
        refine ⟨pre', tok, post, heq.2, hmap, ?_, hr⟩
        rcases hl with ⟨habs, _⟩ | ⟨pre₀, c', hpre, hc'⟩
        · cases habs
        · cases pre₀ with
          | nil =>
            simp only [List.nil_append, List.cons.injEq] at hpre
            obtain ⟨hpc, hpre'⟩ := hpre
            subst hpre'
            refine Or.inl ⟨rfl, ?_⟩
            rw [heq.1, hpc, hc']
            rfl
          | cons q pre₀' =>
            simp only [List.cons_append, List.cons.injEq] at hpre
            exact Or.inr ⟨pre₀', c', hpre.2, hc'⟩

theorem matchCodeToken_iff (code name : String) (h : code.toList ≠ []) :
    matchCodeToken code name = true ↔ tokenOccurs code name := by
  unfold matchCodeToken tokenOccurs
  rw [scanTok_iff code.toList h name.toList true]
  constructor
  · rintro ⟨pre, tok, post, heq, hmap, hl, hr⟩
    refine ⟨pre, tok, post, heq, hmap, ?_, hr⟩
    rcases hl with ⟨rfl, _⟩ | h2
    · exact Or.inl rfl
    · exact Or.inr h2
  · rintro ⟨pre, tok, post, heq, hmap, hl, hr⟩
    refine ⟨pre, tok, post, heq, hmap, ?_, hr⟩
    rcases hl with rfl | h2
    · exact Or.inl ⟨rfl, rfl⟩
    · exact Or.inr h2

theorem hasKeyword_iff (keywords : List String) (name : String) :
    hasKeyword (lowerStr name.toList) keywords = true ↔
      keywordMatch keywords name := by
  unfold hasKeyword keywordMatch
  rw [List.any_eq_true]
  constructor
  · rintro ⟨kw, hmem, hc⟩
    exact ⟨kw, hmem, (containsSub_iff kw.toList _).mp hc⟩
  · rintro ⟨kw, hmem, pre, post, heq⟩
    exact ⟨kw, hmem, (containsSub_iff kw.toList _).mpr ⟨pre, post, heq⟩⟩

theorem region_one_code (kws : List String) (code : String)
    (hc : code.toList ≠ []) (name : String) :
    (hasKeyword (lowerStr name.toList) kws || matchCodeToken code name) = true ↔
      regionSpec kws [code] name := by
  simp only [Bool.or_eq_true, hasKeyword_iff, matchCodeToken_iff _ _ hc,
    regionSpec]
  constructor
  · rintro (h | h)
    · exact Or.inl h
    · exact Or.inr ⟨code, by simp, h⟩
  · rintro (h | ⟨c, hc', ht⟩)
    · exact Or.inl h
    · simp only [List.mem_singleton] at hc'
      subst hc'
      exact Or.inr ht

theorem region_two_codes (kws : List String) (c₁ c₂ : String)
    (h₁ : c₁.toList ≠ []) (h₂ : c₂.toList ≠ []) (name : String) :
    (hasKeyword (lowerStr name.toList) kws || matchCodeToken c₁ name ||
        matchCodeToken c₂ name) = true ↔
      regionSpec kws [c₁, c₂] name := by
  simp only [Bool.or_eq_true, hasKeyword_iff, matchCodeToken_iff _ _ h₁,
    matchCodeToken_iff _ _ h₂, regionSpec]
  constructor
  · rintro ((h | h) | h)
    · exact Or.inl h
    · exact Or.inr ⟨c₁, by simp, h⟩
    · exact Or.inr ⟨c₂, by simp, h⟩
  · rintro (h | ⟨c, hc', ht⟩)
    · exact Or.inl (Or.inl h)
    · simp only [List.mem_cons, List.not_mem_nil, or_false] at hc'
      rcases hc' with rfl | rfl
      · exact Or.inl (Or.inr ht)
      · exact Or.inr ht

/-- Key-by-key characterization of the classifier over the keyword lists
exactly as staged in the source: a region matches exactly when one of the
staged keyword literals occurs in the lowered name, or one of the region's
2–3 letter codes occurs preceded and followed by a string boundary or a
non-alphanumeric character; in particular `"US-01"` matches region US and
`"BONUS-1"` does not. -/
theorem region_classification_correct :
    (∀ name : String,
      ((classifyProxyName name).hk = true ↔ regionSpec hkKeywords ["HK"] name) ∧
      ((classifyProxyName name).tw = true ↔ regionSpec twKeywords ["TW"] name) ∧
      ((classifyProxyName name).jp = true ↔ regionSpec jpKeywords ["JP"] name) ∧
      ((classifyProxyName name).sg = true ↔
        regionSpec sgKeywords ["SG", "SGP"] name) ∧
      ((classifyProxyName name).us = true ↔
        regionSpec usKeywords ["US", "USA"] name) ∧
      ((classifyProxyName name).kr = true ↔ regionSpec krKeywords ["KR"] name)) ∧
    (classifyProxyName "US-01").us = true ∧
    (classifyProxyName "BONUS-1").us = false := by
  refine ⟨fun name => ⟨?_, ?_, ?_, ?_, ?_, ?_⟩, by decide, by decide⟩
  · simpa [classifyProxyName] using
      region_one_code hkKeywords "HK" (by decide) name
  · simpa [classifyProxyName] using
      region_one_code twKeywords "TW" (by decide) name
  · simpa [classifyProxyName] using
      region_one_code jpKeywords "JP" (by decide) name
  · simpa [classifyProxyName] using
      region_two_codes sgKeywords "SG" "SGP" (by decide) (by decide) name
  · simpa [classifyProxyName] using
      region_two_codes usKeywords "US" "USA" (by decide) (by decide) name
  · simpa [classifyProxyName] using
      region_one_code krKeywords "KR" (by decide) name

/-- C4: the keyword literals staged in `classifyProxyName` are a
double-encoded corruption of the intended region flags and
native-language keywords, so a node name consisting of the genuine
native keyword 香港 — or of the genuine flag 🇭🇰 — is NOT classified
into region HK: the claim's flag/keyword clause fails on this code.
The standalone-code-token clause behaves as the claim states
(`"US-01"` matches region US, `"BONUS-1"` does not). -/
theorem region_keyword_bug_eval :
    (classifyProxyName "香港").hk = false ∧
    (classifyProxyName "🇭🇰").hk = false ∧
    (classifyProxyName "US-01").us = true ∧
    (classifyProxyName "BONUS-1").us = false := by
  exact ⟨by decide, by decide, by decide, by decide⟩

/-! ## Base64 (claim C9 and the URI parsers)

`b64decode` embeds Go `base64.StdEncoding.DecodeString`: carriage returns
and newlines are ignored, the input must consist of complete 4-character
quanta, `=` padding may only occur as the last one or two characters of the
final quantum.  `padTo4` embeds the repeated padding-normalization snippet
`if padding := len(content)%4; padding != 0 { content += strings.Repeat("=", 4-padding) }`. -/

/-- Sextet value of a standard-alphabet base64 character. -/
def b64Val (c : Char) : Option Nat :=
  if 'A' ≤ c ∧ c ≤ 'Z' then some (c.toNat - 65)
  else if 'a' ≤ c ∧ c ≤ 'z' then some (c.toNat - 97 + 26)
  else if '0' ≤ c ∧ c ≤ '9' then some (c.toNat - 48 + 52)
  else if c = '+' then some 62
  else if c = '/' then some 63
  else none

/-- Decode complete base64 quanta into bytes; padding only in the final
quantum. -/
def b64Quanta : List Char → Option (List Nat)
  | [] => some []
  | c1 :: c2 :: c3 :: c4 :: rest =>
    match b64Val c1, b64Val c2 with
    | some v1, some v2 =>
      if c3 = '=' then
        if c4 = '=' ∧ rest = [] then
          some [v1 * 4 + v2 / 16]
        else none
      else
        match b64Val c3 with
        | none => none
        | some v3 =>
          if c4 = '=' then
            if rest = [] then
              some [v1 * 4 + v2 / 16, (v2 % 16) * 16 + v3 / 4]
            else none
          else
            match b64Val c4 with
            | none => none
            | some v4 =>
              match b64Quanta rest with
              | none => none
              | some bs =>
                some ([v1 * 4 + v2 / 16, (v2 % 16) * 16 + v3 / 4,
                  (v3 % 4) * 64 + v4] ++ bs)
    | _, _ => none
  | _ => none

/-- `base64.StdEncoding.DecodeString` over characters: drop `\r`/`\n`,
require a multiple-of-four length, decode the quanta. -/
def b64decode (s : List Char) : Option (List Nat) :=
  let t := s.filter (fun c => !(c = '\r' || c = '\n'))
  if t.length % 4 = 0 then b64Quanta t else none

/-- The padding-normalization snippet used by `parseVMess`, `parseSS`,
`parseSSR` and `parseSubscription`. -/
def padTo4 (s : List Char) : List Char :=
  if s.length % 4 = 0 then s else s ++ List.replicate (4 - s.length % 4) '='

/-- The whole-body decode step of `parseSubscription`: try plain base64
first and, if that fails, retry after padding normalization. -/
def subDecode (s : List Char) : Option (List Nat) :=
  match b64decode s with
  | some d => some d
  | none => b64decode (padTo4 s)

/-- C9: removing `k ≤ 3` trailing padding characters from a fully padded
base64 payload is undone exactly by the padding normalization, so decoding
the stripped payload — directly after `padTo4` as in `parseVMess`, or via
the try-then-pad sequence of `parseSubscription` — yields the same result
as decoding the fully padded payload. -/
theorem b64_padding_normalization (q : List Char) (k : Nat)
    (hk : k ≤ 3)
    (hlen : (q ++ List.replicate k '=').length % 4 = 0)
    (hnl : ∀ c ∈ q, c ≠ '\r' ∧ c ≠ '\n') :
    padTo4 q = q ++ List.replicate k '=' ∧
    b64decode (padTo4 q) = b64decode (q ++ List.replicate k '=') ∧
    subDecode q = b64decode (q ++ List.replicate k '=') := by
  have hlen' : (q.length + k) % 4 = 0 := by
    simpa [List.length_append, List.length_replicate] using hlen
  have hpad : padTo4 q = q ++ List.replicate k '=' := by
    unfold padTo4
    rcases Nat.eq_zero_or_pos k with rfl | hkpos
    · have : q.length % 4 = 0 := by simpa using hlen'
      simp [this]
    · have hq4 : q.length % 4 = 4 - k := by omega
      have hne : ¬q.length % 4 = 0 := by omega
      rw [if_neg hne, hq4]
      have : 4 - (4 - k) = k := by omega
      rw [this]
  refine ⟨hpad, by rw [hpad], ?_⟩
  unfold subDecode
  rcases Nat.eq_zero_or_pos k with rfl | hkpos
  · have hqq : q ++ List.replicate 0 '=' = q := by simp
    rw [hqq]
    cases hdec : b64decode q with
    | none =>
      show b64decode (padTo4 q) = none
      rw [hpad, hqq]
      exact hdec
    | some d => rfl
  · have hfq : q.filter (fun c => !(c = '\r' || c = '\n')) = q := by
      rw [List.filter_eq_self]
      intro a ha
      have := hnl a ha
      simp [this.1, this.2]
    have hnone : b64decode q = none := by
      unfold b64decode
      rw [hfq]
      have : ¬q.length % 4 = 0 := by omega
      simp [this]
    rw [hnone, hpad]

/-- Witness for C9 at the vmess-style payload `"e30"` (= `"e30="` with one
padding character removed). -/
theorem b64_padding_normalization_witness :
    padTo4 "e30".toList = "e30".toList ++ List.replicate 1 '=' ∧
    subDecode "e30".toList =
      b64decode ("e30".toList ++ List.replicate 1 '=') := by
  have h := b64_padding_normalization "e30".toList 1 (by decide) (by decide)
    (by decide)
  exact ⟨h.1, h.2.2⟩

/-! ## String splitting, number and escape helpers for the URI decoders -/

/-- A proxy node is an open string-keyed attribute map
(`model.ProxyNode = map[string]interface{}`). -/
abbrev ProxyNode := List (String × Value)

/-- Split at the first occurrence of `sep`: `strings.SplitN(s, sep, 2)`
(`none` when `sep` does not occur). -/
def breakAtFirst (sep : Char) : List Char → Option (List Char × List Char)
  | [] => none
  | c :: rest =>
    if c = sep then some ([], rest)
    else
      match breakAtFirst sep rest with
      | none => none
      | some (a, b) => some (c :: a, b)

/-- Split at the last occurrence of `sep`: `strings.LastIndex`. -/
def breakAtLast (sep : Char) (s : List Char) : Option (List Char × List Char) :=
  match breakAtFirst sep s.reverse with
  | none => none
  | some (a, b) => some (b.reverse, a.reverse)

/-- Prefix of `s` before the first `sep` (all of `s` when absent):
`strings.Split(s, sep)[0]` for a one-character separator. -/
def takeUntil (sep : Char) (s : List Char) : List Char :=
  match breakAtFirst sep s with
  | none => s
  | some (a, _) => a

/-- `strings.Split` on a one-character separator (all fields). -/
def splitAll (sep : Char) : List Char → List (List Char)
  | [] => [[]]
  | c :: rest =>
    let r := splitAll sep rest
    if c = sep then [] :: r
    else
      match r with
      | [] => [[c]]
      | h :: t => (c :: h) :: t

/-- `strings.Split(s, "/?")[0]`: prefix before the first two-character
separator `ab`. -/
def takeUntil2 (a b : Char) : List Char → List Char
  | [] => []
  | [c] => [c]
  | c :: d :: rest =>
    if c = a ∧ d = b then [] else c :: takeUntil2 a b (d :: rest)

/-- Decimal digits to a natural number. -/
def digitsToNat (ds : List Char) : Nat :=
  ds.foldl (fun acc c => acc * 10 + (c.toNat - 48)) 0

/-- `strconv.Atoi` (sign plus decimal digits; `none` on malformed input;
the Go 64-bit overflow bound is not modelled — ports are small). -/
def atoi : List Char → Option Int
  | [] => none
  | '-' :: ds =>
    if ds ≠ [] ∧ ds.all isDigitCh then some (-(digitsToNat ds : Int)) else none
  | '+' :: ds =>
    if ds ≠ [] ∧ ds.all isDigitCh then some (digitsToNat ds : Int) else none
  | ds =>
    if ds.all isDigitCh then some (digitsToNat ds : Int) else none

/-- `n, _ := strconv.Atoi(s)`: the error is discarded and `n` is 0 on
failure. -/
def atoiOrZero (s : List Char) : Int :=
  (atoi s).getD 0

/-- Hexadecimal digit value. -/
def hexVal (c : Char) : Option Nat :=
  if '0' ≤ c ∧ c ≤ '9' then some (c.toNat - 48)
  else if 'a' ≤ c ∧ c ≤ 'f' then some (c.toNat - 87)
  else if 'A' ≤ c ∧ c ≤ 'F' then some (c.toNat - 55)
  else none

/-- `net/url` percent-decoding: `%XX` becomes the byte `XX` (represented
here as the character of that code point), `+` becomes a space only in
query mode (`url.QueryUnescape`), and a malformed escape is an error. -/
def percentDecode (plusToSpace : Bool) : List Char → Option (List Char)
  | [] => some []
  | '%' :: h1 :: h2 :: rest =>
    match hexVal h1, hexVal h2 with
    | some a, some b =>
      (percentDecode plusToSpace rest).map (fun t => Char.ofNat (a * 16 + b) :: t)
    | _, _ => none
  | '%' :: _ => none
  | '+' :: rest =>
    (percentDecode plusToSpace rest).map
      (fun t => (if plusToSpace then ' ' else '+') :: t)
  | c :: rest => (percentDecode plusToSpace rest).map (fun t => c :: t)

/-- One `key=value` pair of a query string, both sides query-unescaped
(`none` when an escape is malformed, in which case `ParseQuery` skips the
pair). -/
def queryPairDecode (pair : List Char) : Option (List Char × List Char) :=
  let kv := match breakAtFirst '=' pair with
    | none => (pair, ([] : List Char))
    | some (a, b) => (a, b)
  match percentDecode true kv.1, percentDecode true kv.2 with
  | some k, some v => some (k, v)
  | _, _ => none

/-- First decodable `key=value` pair bound to `key` among the split
pairs; empty pairs and pairs with malformed escapes are skipped. -/
def queryLookup (key : List Char) : List (List Char) → List Char
  | [] => []
  | p :: rest =>
    if p = [] then queryLookup key rest
    else
      match queryPairDecode p with
      | none => queryLookup key rest
      | some (k, v) => if k = key then v else queryLookup key rest

/-- `u.Query().Get(key)`: first value bound to `key`, `""` when absent. -/
def queryGet (query : List Char) (key : List Char) : List Char :=
  queryLookup key (splitAll '&' query)

/-! ## A `net/url` fragment sufficient for `parseTrojan`

`url.Parse` is modelled for `scheme://[userinfo@]host[:port][/path][?query][#fragment]`
URIs: fragment split off at the first `#` and strictly percent-decoded,
query at the first `?`, authority up to the first `/`, userinfo before the
last `@` (its username part before the first `:`, strictly decoded), port
after the last `:` of the host part and required to be all digits
(`url.Parse` rejects non-numeric ports).  Bracketed IPv6 hosts and host
character validation are not modelled. -/

structure URLParts where
  username : List Char
  host : List Char
  portStr : List Char
  query : List Char
  fragment : List Char

def urlParseAfterScheme (s : List Char) : Option URLParts :=
  let fr := match breakAtFirst '#' s with
    | none => (s, ([] : List Char))
    | some (a, b) => (a, b)
  match percentDecode false fr.2 with
  | none => none
  | some frag =>
    let qr := match breakAtFirst '?' fr.1 with
      | none => (fr.1, ([] : List Char))
      | some (a, b) => (a, b)
    let auth := match breakAtFirst '/' qr.1 with
      | none => qr.1
      | some (a, _) => a
    let ui := match breakAtLast '@' auth with
      | none => (([] : List Char), auth)
      | some (a, b) => (a, b)
    let unameRaw := match breakAtFirst ':' ui.1 with
      | none => ui.1
      | some (a, _) => a
    match percentDecode false unameRaw with
    | none => none
    | some uname =>
      match breakAtLast ':' ui.2 with
      | none => some ⟨uname, ui.2, [], qr.2, frag⟩
      | some (h, p) =>
        if p.all isDigitCh then some ⟨uname, h, p, qr.2, frag⟩
        else none

/-! ## A JSON value parser (for the vmess payload)

Embeds `encoding/json.Unmarshal` into `map[string]interface{}` closely
enough for `parseVMess`: objects keep the last binding of a duplicated key,
strings support the standard and `\uXXXX` escapes, numbers are truncated
toward zero as Go's `int(float64)` conversion does (exponent notation and
a few other rarities are rejected rather than parsed — a safe
under-approximation that only turns exotic payloads into decode failures). -/

/-- JSON inter-token whitespace. -/
def skipWs (s : List Char) : List Char :=
  s.dropWhile (fun c => c = ' ' || c = '\t' || c = '\n' || c = '\r')

/-- Single-character JSON string escapes. -/
def escChar : Char → Option Char
  | '"' => some '"'
  | '\\' => some '\\'
  | '/' => some '/'
  | 'b' => some (Char.ofNat 8)
  | 'f' => some (Char.ofNat 12)
  | 'n' => some '\n'
  | 'r' => some '\r'
  | 't' => some '\t'
  | _ => none

/-- Parse the remainder of a JSON string (after the opening quote). -/
def jsonString : List Char → Option (List Char × List Char)
  | [] => none
  | '"' :: rest => some ([], rest)
  | '\\' :: 'u' :: h1 :: h2 :: h3 :: h4 :: rest =>
    match hexVal h1, hexVal h2, hexVal h3, hexVal h4 with
    | some a, some b, some c, some d =>
      (jsonString rest).map
        (fun p => (Char.ofNat (a * 4096 + b * 256 + c * 16 + d) :: p.1, p.2))
    | _, _, _, _ => none
  | '\\' :: e :: rest =>
    match escChar e with
    | some c => (jsonString rest).map (fun p => (c :: p.1, p.2))
    | none => none
  | c :: rest => (jsonString rest).map (fun p => (c :: p.1, p.2))

/-- Parse a JSON number, truncated toward zero (`int(float64)`). -/
def jsonNum (s : List Char) : Option (Value × List Char) :=
  let np := match s with
    | '-' :: r => (true, r)
    | _ => (false, s)
  let ds := np.2.takeWhile isDigitCh
  let rest := np.2.drop ds.length
  if ds = [] then none
  else
    let intPart : Int := if np.1 then -(digitsToNat ds : Int) else (digitsToNat ds : Int)
    match rest with
    | '.' :: r =>
      let fs := r.takeWhile isDigitCh
      if fs = [] then none
      else
        match r.drop fs.length with
        | 'e' :: _ => none
        | 'E' :: _ => none
        | rest2 => some (Value.vint intPart, rest2)
    | 'e' :: _ => none
    | 'E' :: _ => none
    | _ => some (Value.vint intPart, rest)

mutual

/-- Parse one JSON value; `fuel` bounds the nesting depth (one unit per
recursion step, so `length + 1` always suffices). -/
def jsonVal : Nat → List Char → Option (Value × List Char)
  | 0, _ => none
  | Nat.succ fuel, s =>
    match skipWs s with
    | 't' :: 'r' :: 'u' :: 'e' :: rest => some (Value.vbool true, rest)
    | 'f' :: 'a' :: 'l' :: 's' :: 'e' :: rest => some (Value.vbool false, rest)
    | 'n' :: 'u' :: 'l' :: 'l' :: rest => some (Value.vnull, rest)
    | '"' :: rest =>
      match jsonString rest with
      | none => none
      | some (str, r) => some (Value.vstr (String.mk str), r)
    | '{' :: rest =>
      match skipWs rest with
      | '}' :: r => some (Value.vmap [], r)
      | s2 =>
        match jsonMembers fuel s2 with
        | none => none
        | some (ms, r) =>
          some (Value.vmap (ms.foldl (fun m kv => insertVal m kv.1 kv.2) []), r)
    | '[' :: rest =>
      match skipWs rest with
      | ']' :: r => some (Value.vseq [], r)
      | s2 =>
        match jsonElems fuel s2 with
        | none => none
        | some (vs, r) => some (Value.vseq vs, r)
    | s2 => jsonNum s2

/-- Parse one-or-more `"key": value` members and the closing `}`. -/
def jsonMembers : Nat → List Char →
    Option (List (String × Value) × List Char)
  | 0, _ => none
  | Nat.succ fuel, s =>
    match skipWs s with
    | '"' :: rest =>
      match jsonString rest with
      | none => none
      | some (key, r1) =>
        match skipWs r1 with
        | ':' :: r2 =>
          match jsonVal fuel r2 with
          | none => none
          | some (v, r3) =>
            match skipWs r3 with
            | ',' :: r4 =>
              match jsonMembers fuel r4 with
              | none => none
              | some (ms, r5) => some ((String.mk key, v) :: ms, r5)
            | '}' :: r4 => some ([(String.mk key, v)], r4)
            | _ => none
        | _ => none
    | _ => none

/-- Parse one-or-more array elements and the closing `]`. -/
def jsonElems : Nat → List Char → Option (List Value × List Char)
  | 0, _ => none
  | Nat.succ fuel, s =>
    match jsonVal fuel s with
    | none => none
    | some (v, r) =>
      match skipWs r with
      | ',' :: r2 =>
        match jsonElems fuel r2 with
        | none => none
        | some (vs, r3) => some (v :: vs, r3)
      | ']' :: r2 => some ([v], r2)
      | _ => none

end

/-- `json.Unmarshal(decoded, &map[string]interface{})`: the top-level value
must be an object and nothing but whitespace may follow it. -/
def jsonParseObj (s : List Char) : Option (List (String × Value)) :=
  match jsonVal (s.length + 1) s with
  | some (Value.vmap m, rest) => if skipWs rest = [] then some m else none
  | _ => none

/-- `getString`: the value if it is a string, else the default. -/
def getString (data : List (String × Value)) (key : String)
    (dflt : String) : String :=
  match lookupVal data key with
  | some (Value.vstr s) => s
  | _ => dflt

/-- `getInt`: numbers pass through (already truncated at JSON parse time),
numeric strings go through `Atoi`, anything else gives the default. -/
def getInt (data : List (String × Value)) (key : String) (dflt : Int) : Int :=
  match lookupVal data key with
  | some (Value.vint n) => n
  | some (Value.vstr s) =>
    match atoi s.toList with
    | some v => v
    | none => dflt
  | _ => dflt

/-- Bytes to characters (one character per byte; the decoders only compare
ASCII content). -/
def bytesToChars (bs : List Nat) : List Char :=
  bs.map Char.ofNat

/-! ## The four URI decoders and `parseURI` -/

/-- `parseVMess`: base64-decode the payload after padding normalization,
JSON-decode it, then build the node from the documented field mapping. -/
def parseVMessNode (uri : List Char) : Option ProxyNode :=
  let raw := padTo4 (uri.drop 8)
  match b64decode raw with
  | none => none
  | some bytes =>
    match jsonParseObj (bytesToChars bytes) with
    | none => none
    | some data =>
      let base : ProxyNode := [
        ("name", Value.vstr (getString data "ps" "VMess节点")),
        ("type", Value.vstr "vmess"),
        ("server", Value.vstr (getString data "add" "")),
        ("port", Value.vint (getInt data "port" 443)),
        ("uuid", Value.vstr (getString data "id" "")),
        ("alterId", Value.vint (getInt data "aid" 0)),
        ("cipher", Value.vstr (getString data "scy" "auto")),
        ("udp", Value.vbool true)]
      let n1 :=
        if getString data "tls" "" = "tls" then
          let t := insertVal base "tls" (Value.vbool true)
          if getString data "sni" "" ≠ "" then
            insertVal t "servername" (Value.vstr (getString data "sni" ""))
          else t
        else base
      let net := getString data "net" "tcp"
      let n2 :=
        if net = "ws" then
          let a := insertVal n1 "network" (Value.vstr "ws")
          let w : List (String × Value) := []
          let w :=
            if getString data "path" "" ≠ "" then
              insertVal w "path" (Value.vstr (getString data "path" ""))
            else w
          let w :=
            if getString data "host" "" ≠ "" then
              insertVal w "headers"
                (Value.vmap [("Host", Value.vstr (getString data "host" ""))])
            else w
          if w.isEmpty then a else insertVal a "ws-opts" (Value.vmap w)
        else if net = "grpc" then
          let a := insertVal n1 "network" (Value.vstr "grpc")
          if getString data "path" "" ≠ "" then
            insertVal a "grpc-opts"
              (Value.vmap
                [("grpc-service-name", Value.vstr (getString data "path" ""))])
          else a
        else n1
      some n2

/-- `parseTrojan`: parse the URI, password from the userinfo, port default
443, percent-decoded fragment as name, `sni` / `allowInsecure` / websocket
options from the query. -/
def parseTrojanNode (uri : List Char) : Option ProxyNode :=
  match urlParseAfterScheme (uri.drop 9) with
  | none => none
  | some u =>
    let name :=
      if u.fragment = [] then "Trojan节点".toList
      else (percentDecode true u.fragment).getD []
    let port : Int := if u.portStr = [] then 443 else atoiOrZero u.portStr
    let base : ProxyNode := [
      ("name", Value.vstr (String.mk name)),
      ("type", Value.vstr "trojan"),
      ("server", Value.vstr (String.mk u.host)),
      ("port", Value.vint port),
      ("password", Value.vstr (String.mk u.username)),
      ("udp", Value.vbool true)]
    let n1 :=
      if queryGet u.query "sni".toList ≠ [] then
        insertVal base "sni"
          (Value.vstr (String.mk (queryGet u.query "sni".toList)))
      else base
    let n2 :=
      if queryGet u.query "allowInsecure".toList = "1".toList then
        insertVal n1 "skip-cert-verify" (Value.vbool true)
      else n1
    let n3 :=
      if queryGet u.query "type".toList = "ws".toList then
        let a := insertVal n2 "network" (Value.vstr "ws")
        let w : List (String × Value) := []
        let w :=
          if queryGet u.query "path".toList ≠ [] then
            insertVal w "path"
              (Value.vstr (String.mk (queryGet u.query "path".toList)))
          else w
        let w :=
          if queryGet u.query "host".toList ≠ [] then
            insertVal w "headers"
              (Value.vmap
                [("Host",
                  Value.vstr (String.mk (queryGet u.query "host".toList)))])
          else w
        if w.isEmpty then a else insertVal a "ws-opts" (Value.vmap w)
      else n2
    some n3

/-- `parseSS`: strip the fragment name, then either layout A
(`base64(method:password)@server:port`) or layout B (one base64 blob split
at the last `@`); nodes without a server or cipher are dropped. -/
def parseSSNode (uri : List Char) : Option ProxyNode :=
  let raw0 := uri.drop 5
  let rn :=
    match breakAtLast '#' raw0 with
    | none => (raw0, "SS节点".toList)
    | some (a, b) =>
      match percentDecode true b with
      | some n => (a, n)
      | none => (a, "SS节点".toList)
  let raw := rn.1
  let name := rn.2
  let mpsp :=
    match breakAtFirst '@' raw with
    | some (userInfo, serverInfo) =>
      let mp :=
        match b64decode (padTo4 userInfo) with
        | some bytes =>
          match breakAtFirst ':' (bytesToChars bytes) with
          | some (m, p) => (m, p)
          | none => (([] : List Char), ([] : List Char))
        | none => (([] : List Char), ([] : List Char))
      let sp :=
        match breakAtFirst ':' serverInfo with
        | some (sv, rest) =>
          (sv, atoiOrZero (takeUntil '/' (takeUntil '?' rest)))
        | none => (([] : List Char), (0 : Int))
      (mp.1, mp.2, sp.1, sp.2)
    | none =>
      match b64decode (padTo4 raw) with
      | some bytes =>
        match breakAtLast '@' (bytesToChars bytes) with
        | some (methodPas, serverInfo) =>
          let mp :=
            match breakAtFirst ':' methodPas with
            | some (m, p) => (m, p)
            | none => (([] : List Char), ([] : List Char))
          let sp :=
            match breakAtFirst ':' serverInfo with
            | some (sv, ps) => (sv, atoiOrZero ps)
            | none => (([] : List Char), (0 : Int))
          (mp.1, mp.2, sp.1, sp.2)
        | none => (([] : List Char), ([] : List Char), ([] : List Char), (0 : Int))
      | none => (([] : List Char), ([] : List Char), ([] : List Char), (0 : Int))
  let method := mpsp.1
  let password := mpsp.2.1
  let server := mpsp.2.2.1
  let port := mpsp.2.2.2
  if server = [] ∨ method = [] then none
  else
    some [
      ("name", Value.vstr (String.mk name)),
      ("type", Value.vstr "ss"),
      ("server", Value.vstr (String.mk server)),
      ("port", Value.vint port),
      ("cipher", Value.vstr (String.mk method)),
      ("password", Value.vstr (String.mk password)),
      ("udp", Value.vbool true)]

/-- `parseSSR`: base64-decode the remainder, drop everything after `/?`,
require at least six colon-separated fields, base64-decode the password
(degrading to the empty string on failure). -/
def parseSSRNode (uri : List Char) : Option ProxyNode :=
  let raw := padTo4 (uri.drop 6)
  match b64decode raw with
  | none => none
  | some bytes =>
    let mainPart := takeUntil2 '/' '?' (bytesToChars bytes)
    let parts := splitAll ':' mainPart
    if parts.length < 6 then none
    else
      let server := parts.getD 0 []
      let port : Int := atoiOrZero (parts.getD 1 [])
      let protocol := parts.getD 2 []
      let method := parts.getD 3 []
      let obfs := parts.getD 4 []
      let password :=
        match b64decode (padTo4 (parts.getD 5 [])) with
        | some pb => bytesToChars pb
        | none => []
      some [
        ("name", Value.vstr ("SSR-" ++ String.mk server ++ ":" ++ toString port)),
        ("type", Value.vstr "ssr"),
        ("server", Value.vstr (String.mk server)),
        ("port", Value.vint port),
        ("cipher", Value.vstr (String.mk method)),
        ("password", Value.vstr (String.mk password)),
        ("protocol", Value.vstr (String.mk protocol)),
        ("obfs", Value.vstr (String.mk obfs)),
        ("udp", Value.vbool true)]

/-- `parseURI`: dispatch on the scheme prefix; unrecognized schemes yield
no node. -/
def parseURI (uri : List Char) : Option ProxyNode :=
  if startsWithCh "vmess://".toList uri then parseVMessNode uri
  else if startsWithCh "trojan://".toList uri then parseTrojanNode uri
  else if startsWithCh "ss://".toList uri then parseSSNode uri
  else if startsWithCh "ssr://".toList uri then parseSSRNode uri
  else none

/-! ## Decoder claims (C1 and C8) -/

/-- C8: decoding the literal trojan sample URI yields the documented
fields: type `"trojan"`, server `"host"`, port 443, password `"pw"`,
sni `"example.com"`, skip-cert-verify `true`, name `"My Node"`. -/
theorem trojan_literal_decode :
    (parseURI "trojan://pw@host:443?sni=example.com&allowInsecure=1#My%20Node".toList).map
      (fun n =>
        (lookupVal n "type", lookupVal n "server", lookupVal n "port",
         lookupVal n "password", lookupVal n "sni",
         lookupVal n "skip-cert-verify", lookupVal n "name")) =
    some (some (Value.vstr "trojan"), some (Value.vstr "host"),
      some (Value.vint 443), some (Value.vstr "pw"),
      some (Value.vstr "example.com"), some (Value.vbool true),
      some (Value.vstr "My Node")) := by
  rfl

/-- C1 counterexample: `trojan://pw@:443` decodes to a node whose `server`
field is the empty string — the decoder returns it instead of dropping it. -/
theorem decoder_empty_server_counterexample :
    (parseURI "trojan://pw@:443".toList).map
      (fun n => lookupVal n "server") = some (some (Value.vstr "")) := by
  rfl

theorem mkStr_ne_empty (l : List Char) (h : l ≠ []) : String.mk l ≠ "" := by
  intro he
  apply h
  have := congrArg String.data he
  simpa using this

set_option maxHeartbeats 1000000 in
theorem parseVMess_shape (uri : List Char) (node : ProxyNode)
    (h : parseVMessNode uri = some node) :
    lookupVal node "type" = some (Value.vstr "vmess") ∧
    ∃ p, lookupVal node "port" = some (Value.vint p) := by
  unfold parseVMessNode at h
  dsimp only [] at h
  split at h
  · exact Option.noConfusion h
  split at h
  · exact Option.noConfusion h
  rw [Option.some.injEq] at h
  subst h
  constructor
  · repeat' split
    all_goals rfl
  · repeat' split
    all_goals exact ⟨_, rfl⟩

set_option maxHeartbeats 1000000 in
theorem parseTrojan_shape (uri : List Char) (node : ProxyNode)
    (h : parseTrojanNode uri = some node) :
    lookupVal node "type" = some (Value.vstr "trojan") ∧
    ∃ p, lookupVal node "port" = some (Value.vint p) := by
  unfold parseTrojanNode at h
  dsimp only [] at h
  split at h
  · exact Option.noConfusion h
  rw [Option.some.injEq] at h
  subst h
  constructor
  · repeat' split
    all_goals rfl
  · repeat' split
    all_goals exact ⟨_, rfl⟩

theorem parseSS_shape (uri : List Char) (node : ProxyNode)
    (h : parseSSNode uri = some node) :
    lookupVal node "type" = some (Value.vstr "ss") ∧
    (∃ p, lookupVal node "port" = some (Value.vint p)) ∧
    (∃ s, lookupVal node "server" = some (Value.vstr s) ∧ s ≠ "") := by
  unfold parseSSNode at h
  dsimp only [] at h
  split at h
  · exact Option.noConfusion h
  next hcond =>
    rw [Option.some.injEq] at h
    subst h
    push_neg at hcond
    exact ⟨rfl, ⟨_, rfl⟩, ⟨_, rfl, mkStr_ne_empty _ hcond.1⟩⟩

theorem parseSSR_shape (uri : List Char) (node : ProxyNode)
    (h : parseSSRNode uri = some node) :
    lookupVal node "type" = some (Value.vstr "ssr") ∧
    ∃ p, lookupVal node "port" = some (Value.vint p) := by
  unfold parseSSRNode at h
  dsimp only [] at h
  split at h
  · exact Option.noConfusion h
  split at h
  · exact Option.noConfusion h
  rw [Option.some.injEq] at h
  subst h
  exact ⟨rfl, ⟨_, rfl⟩⟩

theorem startsWith_head_eq {a b : Char} {p q : List Char} (uri : List Char)
    (h1 : startsWithCh (a :: p) uri = true)
    (h2 : startsWithCh (b :: q) uri = true) : a = b := by
  obtain ⟨r1, hr1⟩ := (startsWithCh_iff _ _).mp h1
  obtain ⟨r2, hr2⟩ := (startsWithCh_iff _ _).mp h2
  rw [hr1] at hr2
  simp only [List.cons_append, List.cons.injEq] at hr2
  exact hr2.1

/-- C1, amended: every node the URI decoder returns has the non-empty
literal protocol tag in `type` and an integer `port`; the `ss` branch
additionally guarantees a non-empty `server` (nodes failing that are
dropped).  The vmess, trojan and ssr branches, however, can return nodes
whose `server` is empty (see the counterexample). -/
theorem decoder_node_invariant :
    ∀ (uri : List Char) (node : ProxyNode), parseURI uri = some node →
      (∃ t, lookupVal node "type" = some (Value.vstr t) ∧ t ≠ "") ∧
      (∃ p, lookupVal node "port" = some (Value.vint p)) ∧
      (startsWithCh "ss://".toList uri = true →
        ∃ s, lookupVal node "server" = some (Value.vstr s) ∧ s ≠ "") := by
  intro uri node h
  unfold parseURI at h
  split_ifs at h with hv ht hs hr
  · obtain ⟨h1, h2⟩ := parseVMess_shape uri node h
    refine ⟨⟨"vmess", h1, by decide⟩, h2, fun hss => ?_⟩
    exact absurd (startsWith_head_eq uri hv hss) (by decide)
  · obtain ⟨h1, h2⟩ := parseTrojan_shape uri node h
    refine ⟨⟨"trojan", h1, by decide⟩, h2, fun hss => ?_⟩
    exact absurd (startsWith_head_eq uri ht hss) (by decide)
  · obtain ⟨h1, h2, h3⟩ := parseSS_shape uri node h
    exact ⟨⟨"ss", h1, by decide⟩, h2, fun _ => h3⟩
  · obtain ⟨h1, h2⟩ := parseSSR_shape uri node h
    exact ⟨⟨"ssr", h1, by decide⟩, h2, fun hss => absurd hss hs⟩

/-- Witness for the amended C1 theorem at a concrete trojan URI. -/
theorem decoder_node_invariant_witness :
    ∃ node, parseURI "trojan://pw@host:443".toList = some node ∧
      (∃ t, lookupVal node "type" = some (Value.vstr t) ∧ t ≠ "") ∧
      (∃ p, lookupVal node "port" = some (Value.vint p)) := by
  have h : parseURI "trojan://pw@host:443".toList =
      some [("name", Value.vstr "Trojan节点"), ("type", Value.vstr "trojan"),
        ("server", Value.vstr "host"), ("port", Value.vint 443),
        ("password", Value.vstr "pw"), ("udp", Value.vbool true)] := by rfl
  have hinv := decoder_node_invariant _ _ h
  exact ⟨_, h, hinv.1, hinv.2.1⟩

/-! ## The per-URL proxy cache and the refresh engine (claims C3, C6, C7, C10)

The Redis store is an explicit value: per-URL entries (nodes + update
timestamp) and the batch timestamp `LastRunAt`.  Per-URL fetch+parse
outcomes and per-URL save outcomes are oracles (`fetchOut`, `saveOut`);
`lastRunOk` says whether the final `SetProxyCacheLastRunAt` write succeeds.
The Go code runs one goroutine per URL, but the workers touch disjoint
store keys and the results are re-ordered into normalized-URL order before
aggregation, so a sequential fold over the normalized URLs is an admissible
model. -/

/-- One cache entry: node snapshot plus update timestamp. -/
structure CacheEntry where
  nodes : List ProxyNode
  updatedAt : Int

/-- The store: per-URL entries plus the last-full-refresh timestamp. -/
structure CacheStore where
  entries : List (String × CacheEntry)
  lastRunAt : Int

/-- `GetProxyCache` (found case): association-list lookup. -/
def lookupEnt : List (String × CacheEntry) → String → Option CacheEntry
  | [], _ => none
  | (k, e) :: rest, u => if k = u then some e else lookupEnt rest u

/-- `SaveProxyCache`: replace the binding or append a fresh one. -/
def insertEnt (m : List (String × CacheEntry)) (u : String) (e : CacheEntry) :
    List (String × CacheEntry) :=
  match m with
  | [] => [(u, e)]
  | (k, e') :: rest =>
    if k = u then (k, e) :: rest else (k, e') :: insertEnt rest u e

/-- `normalizeSubscribeURLs`: trim, drop blanks, de-duplicate keeping the
first occurrence.  (The Go code tracks a separate `seen` set; it always
contains exactly the URLs already appended to the output.) -/
def normalizeSubscribeURLs (urls : List String) : List String :=
  urls.foldl
    (fun out raw =>
      let url := trimString raw
      if url = "" then out
      else if url ∈ out then out
      else out ++ [url])
    []

/-- `ProxyCacheRefreshItem`. -/
structure RefreshItem where
  url : String
  count : Nat
  updatedAt : Int
  error : String

/-- `ProxyCacheRefreshResult`. -/
structure RefreshResult where
  total : Nat
  success : Nat
  failed : Nat
  refreshedAt : Int
  items : List RefreshItem

/-- The per-URL worker's reported item: fetch failure or save failure
record the error string; success records the node count. -/
def refreshItemFor (fetchOut : String → Except String (List ProxyNode))
    (saveOut : String → Option String) (now : Int) (url : String) :
    RefreshItem :=
  match fetchOut url with
  | Except.error e => ⟨url, 0, now, e⟩
  | Except.ok proxies =>
    match saveOut url with
    | some e => ⟨url, 0, now, e⟩
    | none => ⟨url, proxies.length, now, ""⟩

/-- The per-URL worker's store effect: a cache entry is written only when
both the fetch and the save succeed. -/
def refreshWrite (fetchOut : String → Except String (List ProxyNode))
    (saveOut : String → Option String) (now : Int)
    (st : CacheStore) (url : String) : CacheStore :=
  match fetchOut url with
  | Except.error _ => st
  | Except.ok proxies =>
    match saveOut url with
    | some _ => st
    | none => { st with entries := insertEnt st.entries url ⟨proxies, now⟩ }

/-- `RefreshProxyCache`: normalize, short-circuit on the empty list, one
worker per URL, aggregate in normalized order, then persist `LastRunAt`
(whose write error is returned alongside the fully populated result). -/
def refreshProxyCache (fetchOut : String → Except String (List ProxyNode))
    (saveOut : String → Option String) (lastRunOk : Bool)
    (st : CacheStore) (urls : List String) (now : Int) :
    RefreshResult × CacheStore × Option String :=
  let ns := normalizeSubscribeURLs urls
  if ns.isEmpty then
    (⟨0, 0, 0, now, []⟩, st, none)
  else
    let items := ns.map (refreshItemFor fetchOut saveOut now)
    let st1 := ns.foldl (refreshWrite fetchOut saveOut now) st
    let st2 := if lastRunOk then { st1 with lastRunAt := now } else st1
    (⟨ns.length,
      items.countP (fun it => it.error == ""),
      items.countP (fun it => !(it.error == "")),
      now, items⟩,
     st2,
     if lastRunOk then none else some "store error")

/-- The URLs a `refreshProxyCache` call issues fetches for: exactly its
normalized input. -/
def refreshFetchSet (urls : List String) : List String :=
  normalizeSubscribeURLs urls

/-- `BuildProxiesFromCache`: normalize, collect the URLs with no cache
entry, refresh only those (best effort — the refresh error is dropped),
then concatenate every found entry in URL order.  The third component
records which URLs were fetched. -/
def buildProxiesFromCache (fetchOut : String → Except String (List ProxyNode))
    (saveOut : String → Option String) (lastRunOk : Bool)
    (st : CacheStore) (urls : List String) (now : Int) :
    List ProxyNode × CacheStore × List String :=
  let ns := normalizeSubscribeURLs urls
  if ns.isEmpty then ([], st, [])
  else
    let missing := ns.foldl
      (fun acc u =>
        let url := trimString u
        if url = "" then acc
        else
          match lookupEnt st.entries url with
          | some _ => acc
          | none => acc ++ [url])
      []
    let stAfter :=
      if missing.isEmpty then st
      else (refreshProxyCache fetchOut saveOut lastRunOk st missing now).2.1
    let fetched := if missing.isEmpty then [] else refreshFetchSet missing
    let all := ns.foldl
      (fun acc url =>
        match lookupEnt stAfter.entries url with
        | none => acc
        | some e => acc ++ e.nodes)
      []
    (all, stAfter, fetched)

/-- `shouldRunDailyRefresh` (time in Unix seconds, 24h = 86400s): no
sources → never; no recorded run (`lastRunAt ≤ 0`) → run; otherwise run
when at least 24 hours have passed. -/
def shouldRunDailyRefresh (urls : List String) (lastRunAt now : Int) : Bool :=
  if (normalizeSubscribeURLs urls).isEmpty then false
  else if lastRunAt ≤ 0 then true
  else decide (now - lastRunAt ≥ 86400)

/-! ### Normalization lemmas -/

theorem dropWhile_self_idem (p : Char → Bool) (l : List Char) :
    (l.dropWhile p).dropWhile p = l.dropWhile p := by
  induction l with
  | nil => rfl
  | cons c rest ih =>
    by_cases h : p c
    · simp [List.dropWhile_cons, h, ih]
    · simp [List.dropWhile_cons, h]

theorem head_dropWhile_not (p : Char → Bool) :
    ∀ (l : List Char) (c : Char), (l.dropWhile p).head? = some c →
      p c = false := by
  intro l
  induction l with
  | nil => intro c h; simp [List.dropWhile] at h
  | cons a rest ih =>
    intro c h
    by_cases hp : p a
    · rw [List.dropWhile_cons, if_pos hp] at h
      exact ih c h
    · rw [List.dropWhile_cons, if_neg hp] at h
      simp only [List.head?_cons, Option.some.injEq] at h
      subst h
      exact Bool.eq_false_iff.mpr hp

theorem dropWhile_eq_self_of_head (p : Char → Bool) (l : List Char)
    (h : ∀ c, l.head? = some c → p c = false) : l.dropWhile p = l := by
  cases l with
  | nil => rfl
  | cons a rest =>
    rw [List.dropWhile_cons, if_neg]
    simp [h a rfl]

theorem trimChars_idem (l : List Char) :
    trimChars (trimChars l) = trimChars l := by
  unfold trimChars
  set D1 := l.dropWhile isSpaceGo with hD1
  set D2 := D1.reverse.dropWhile isSpaceGo with hD2
  have hpref : ∃ t, D1 = D2.reverse ++ t := by
    refine ⟨(D1.reverse.takeWhile isSpaceGo).reverse, ?_⟩
    have := List.takeWhile_append_dropWhile (p := isSpaceGo) (l := D1.reverse)
    calc D1 = D1.reverse.reverse := by simp
    _ = (D1.reverse.takeWhile isSpaceGo ++ D2).reverse := by rw [this]
    _ = D2.reverse ++ (D1.reverse.takeWhile isSpaceGo).reverse := by
        simp [List.reverse_append]
  have hdw : D2.reverse.reverse.dropWhile isSpaceGo = D2 := by
    rw [List.reverse_reverse]
    exact dropWhile_self_idem _ _
  have hstep : D2.reverse.dropWhile isSpaceGo = D2.reverse := by
    apply dropWhile_eq_self_of_head
    intro c hc
    obtain ⟨t, ht⟩ := hpref
    have hD1head : D1.head? = some c := by
      rw [ht]
      cases hrev : D2.reverse with
      | nil => rw [hrev] at hc; simp at hc
      | cons x xs =>
        rw [hrev] at hc
        simp only [List.head?_cons, Option.some.injEq] at hc
        subst hc
        simp
    exact head_dropWhile_not isSpaceGo l c (hD1.symm ▸ hD1head)
  rw [hstep, hdw]

theorem trimString_idem (s : String) :
    trimString (trimString s) = trimString s := by
  unfold trimString
  have : (String.mk (trimChars s.toList)).toList = trimChars s.toList := rfl
  rw [this, trimChars_idem]

/-- Every output of `normalizeSubscribeURLs` is trimmed and non-empty. -/
theorem normalize_mem (urls : List String) :
    ∀ u ∈ normalizeSubscribeURLs urls, trimString u = u ∧ u ≠ "" := by
  unfold normalizeSubscribeURLs
  have general : ∀ (l out : List String),
      (∀ u ∈ out, trimString u = u ∧ u ≠ "") →
      ∀ u ∈ l.foldl
        (fun out raw =>
          let url := trimString raw
          if url = "" then out
          else if url ∈ out then out
          else out ++ [url]) out,
        trimString u = u ∧ u ≠ "" := by
    intro l
    induction l with
    | nil => intro out hout u hu; exact hout u hu
    | cons raw rest ih =>
      intro out hout u hu
      rw [List.foldl_cons] at hu
      refine ih _ ?_ u hu
      intro v hv
      dsimp only [] at hv
      split at hv
      · exact hout v hv
      · split at hv
        · exact hout v hv
        · rcases List.mem_append.mp hv with h | h
          · exact hout v h
          · simp only [List.mem_singleton] at h
            subst h
            exact ⟨trimString_idem raw, by assumption⟩
  exact general urls [] (by simp)

/-- The outputs of `normalizeSubscribeURLs` are pairwise distinct. -/
theorem normalize_nodup (urls : List String) :
    (normalizeSubscribeURLs urls).Nodup := by
  unfold normalizeSubscribeURLs
  have general : ∀ (l out : List String), out.Nodup →
      (l.foldl
        (fun out raw =>
          let url := trimString raw
          if url = "" then out
          else if url ∈ out then out
          else out ++ [url]) out).Nodup := by
    intro l
    induction l with
    | nil => intro out h; exact h
    | cons raw rest ih =>
      intro out hout
      rw [List.foldl_cons]
      apply ih
      dsimp only []
      split
      · exact hout
      · split
        · exact hout
        · refine List.Nodup.append hout (by simp) ?_
          intro a ha hb
          simp only [List.mem_singleton] at hb
          subst hb
          exact ‹trimString raw ∉ out› ha
  exact general urls [] (by simp)

/-- Normalization is the identity on a list of distinct, trimmed,
non-empty URLs (such as the `missing` list handed to the refresh pass). -/
theorem normalize_fixed (l : List String)
    (helem : ∀ u ∈ l, trimString u = u ∧ u ≠ "") (hnd : l.Nodup) :
    normalizeSubscribeURLs l = l := by
  unfold normalizeSubscribeURLs
  have general : ∀ (l' out : List String),
      (∀ u ∈ l', trimString u = u ∧ u ≠ "") → (out ++ l').Nodup →
      l'.foldl
        (fun out raw =>
          let url := trimString raw
          if url = "" then out
          else if url ∈ out then out
          else out ++ [url]) out = out ++ l' := by
    intro l'
    induction l' with
    | nil => intro out _ _; simp
    | cons u rest ih =>
      intro out helem' hnd'
      rw [List.foldl_cons]
      dsimp only []
      rw [(helem' u (by simp)).1]
      rw [if_neg (helem' u (by simp)).2]
      have hnotmem : u ∉ out := by
        intro hmem
        exact (List.nodup_append.mp hnd').2.2 hmem (by simp)
      rw [if_neg hnotmem]
      rw [ih (out ++ [u]) (fun v hv => helem' v (by simp [hv]))
        (by simpa [List.append_assoc] using hnd')]
      simp
  simpa using general l [] helem (by simpa using hnd)

/-! ### Refresh-engine theorems (C3, C10) -/

/-- A URL's refresh pipeline fails when the fetch errors or, after a
successful fetch, the cache write errors. -/
def urlFails (fetchOut : String → Except String (List ProxyNode))
    (saveOut : String → Option String) (url : String) : Bool :=
  match fetchOut url with
  | Except.error _ => true
  | Except.ok _ => (saveOut url).isSome

theorem lookupEnt_insert_ne (m : List (String × CacheEntry)) (k u : String)
    (e : CacheEntry) (h : k ≠ u) :
    lookupEnt (insertEnt m k e) u = lookupEnt m u := by
  induction m with
  | nil => simp [insertEnt, lookupEnt, h]
  | cons kv rest ih =>
    obtain ⟨k₀, e₀⟩ := kv
    by_cases hk : k₀ = k
    · subst hk
      simp [insertEnt, lookupEnt, h]
    · simp only [insertEnt, if_neg hk, lookupEnt]
      by_cases hu : k₀ = u
      · simp [hu]
      · simp [hu, ih]

theorem countP_split {α : Type} (l : List α) (p q : α → Bool)
    (hpq : ∀ a, q a = !(p a)) : l.countP p + l.countP q = l.length := by
  induction l with
  | nil => rfl
  | cons a rest ih =>
    rw [List.countP_cons, List.countP_cons, hpq a]
    cases hpa : p a
    all_goals simp only [hpa, Bool.not_true, Bool.not_false, if_pos, if_neg,
      List.length_cons, Bool.false_eq_true, if_false, if_true]
    all_goals omega

theorem countP_congr_mem {α : Type} (l : List α) (p q : α → Bool)
    (h : ∀ a ∈ l, p a = q a) : l.countP p = l.countP q := by
  induction l with
  | nil => rfl
  | cons a rest ih =>
    rw [List.countP_cons, List.countP_cons, h a (by simp),
      ih (fun b hb => h b (by simp [hb]))]

theorem item_error_empty_iff
    (fetchOut : String → Except String (List ProxyNode))
    (saveOut : String → Option String) (now : Int) (u : String)
    (hfe : ∀ e, fetchOut u = Except.error e → e ≠ "")
    (hse : ∀ e, saveOut u = some e → e ≠ "") :
    ((refreshItemFor fetchOut saveOut now u).error == "") =
      !(urlFails fetchOut saveOut u) := by
  unfold refreshItemFor urlFails
  cases hf : fetchOut u with
  | error e => simp [hfe e hf]
  | ok ps =>
    cases hs : saveOut u with
    | some e => simp [hse e hs]
    | none => simp

theorem refresh_fold_untouched
    (fetchOut : String → Except String (List ProxyNode))
    (saveOut : String → Option String) (now : Int) :
    ∀ (l : List String) (st : CacheStore) (u : String),
      (∀ v ∈ l, v = u → urlFails fetchOut saveOut v = true) →
      lookupEnt ((l.foldl (refreshWrite fetchOut saveOut now) st).entries) u =
        lookupEnt st.entries u := by
  intro l
  induction l with
  | nil => intro st u _; rfl
  | cons v rest ih =>
    intro st u hall
    rw [List.foldl_cons]
    rw [ih _ u (fun w hw => hall w (List.mem_cons_of_mem _ hw))]
    by_cases hvu : v = u
    · subst hvu
      have hfv := hall v (by simp) rfl
      unfold refreshWrite
      unfold urlFails at hfv
      cases hf : fetchOut v with
      | error e => rfl
      | ok ps =>
        rw [hf] at hfv
        cases hs : saveOut v with
        | none => rw [hs] at hfv; simp at hfv
        | some e => rfl
    · unfold refreshWrite
      cases fetchOut v with
      | error e => rfl
      | ok ps =>
        cases saveOut v with
        | some e => rfl
        | none => exact lookupEnt_insert_ne _ _ _ _ hvu

/-- C3: a refresh batch whose urls normalize to `n` distinct URLs of which
`k` fail at the fetch or store-write step reports `total = n`,
`failed = k`, `success = n − k`; the cache entry of every failing URL is
left exactly as it was before the batch (no save is performed for it); and
a URL that fetches successfully but parses to zero nodes is recorded
without an error, i.e. counted as a success. -/
theorem refresh_batch_accounting
    (fetchOut : String → Except String (List ProxyNode))
    (saveOut : String → Option String) (lastRunOk : Bool)
    (st : CacheStore) (urls : List String) (now : Int)
    (hfe : ∀ u e, fetchOut u = Except.error e → e ≠ "")
    (hse : ∀ u e, saveOut u = some e → e ≠ "") :
    (refreshProxyCache fetchOut saveOut lastRunOk st urls now).1.total =
      (normalizeSubscribeURLs urls).length ∧
    (refreshProxyCache fetchOut saveOut lastRunOk st urls now).1.failed =
      ((normalizeSubscribeURLs urls).filter (urlFails fetchOut saveOut)).length ∧
    (refreshProxyCache fetchOut saveOut lastRunOk st urls now).1.success =
      (normalizeSubscribeURLs urls).length -
        ((normalizeSubscribeURLs urls).filter (urlFails fetchOut saveOut)).length ∧
    (∀ u ∈ normalizeSubscribeURLs urls, urlFails fetchOut saveOut u = true →
      lookupEnt
        (refreshProxyCache fetchOut saveOut lastRunOk st urls now).2.1.entries u =
        lookupEnt st.entries u) ∧
    (∀ u, fetchOut u = Except.ok [] → saveOut u = none →
      (refreshItemFor fetchOut saveOut now u).error = "") := by
  have hzero : ∀ u, fetchOut u = Except.ok [] → saveOut u = none →
      (refreshItemFor fetchOut saveOut now u).error = "" := by
    intro u hf hs
    simp [refreshItemFor, hf, hs]
  by_cases hemp : (normalizeSubscribeURLs urls).isEmpty = true
  · have hnil := List.isEmpty_iff.mp hemp
    refine ⟨?_, ?_, ?_, ?_, hzero⟩ <;> simp [refreshProxyCache, hnil]
  · have hne : (normalizeSubscribeURLs urls).isEmpty = false :=
      Bool.eq_false_iff.mpr hemp
    have hout : refreshProxyCache fetchOut saveOut lastRunOk st urls now =
        (⟨(normalizeSubscribeURLs urls).length,
          ((normalizeSubscribeURLs urls).map
            (refreshItemFor fetchOut saveOut now)).countP
              (fun it => it.error == ""),
          ((normalizeSubscribeURLs urls).map
            (refreshItemFor fetchOut saveOut now)).countP
              (fun it => !(it.error == "")),
          now,
          (normalizeSubscribeURLs urls).map (refreshItemFor fetchOut saveOut now)⟩,
         (if lastRunOk then
            { (normalizeSubscribeURLs urls).foldl
                (refreshWrite fetchOut saveOut now) st with lastRunAt := now }
          else (normalizeSubscribeURLs urls).foldl
            (refreshWrite fetchOut saveOut now) st),
         (if lastRunOk then none else some "store error")) := by
      unfold refreshProxyCache
      dsimp only []
      rw [hne]
      rfl
    have hfail :
        ((normalizeSubscribeURLs urls).map
          (refreshItemFor fetchOut saveOut now)).countP
            (fun it => !(it.error == "")) =
          ((normalizeSubscribeURLs urls).filter
            (urlFails fetchOut saveOut)).length := by
      rw [List.countP_map, ← List.countP_eq_length_filter]
      apply countP_congr_mem
      intro u _
      simp only [Function.comp_apply,
        item_error_empty_iff fetchOut saveOut now u (hfe u) (hse u),
        Bool.not_not]
    have hsucc :
        ((normalizeSubscribeURLs urls).map
          (refreshItemFor fetchOut saveOut now)).countP
            (fun it => (it.error == "")) =
          (normalizeSubscribeURLs urls).length -
            ((normalizeSubscribeURLs urls).filter
              (urlFails fetchOut saveOut)).length := by
      have hsplit := countP_split
        ((normalizeSubscribeURLs urls).map (refreshItemFor fetchOut saveOut now))
        (fun it => (it.error == "")) (fun it => !(it.error == ""))
        (fun _ => rfl)
      rw [hfail, List.length_map] at hsplit
      have hk_le : ((normalizeSubscribeURLs urls).filter
          (urlFails fetchOut saveOut)).length ≤
          (normalizeSubscribeURLs urls).length :=
        List.length_filter_le _ _
      omega
    have huntouched : ∀ u ∈ normalizeSubscribeURLs urls,
        urlFails fetchOut saveOut u = true →
        lookupEnt
          (refreshProxyCache fetchOut saveOut lastRunOk st urls now).2.1.entries u =
          lookupEnt st.entries u := by
      intro u _ hu
      rw [hout]
      have hfold := refresh_fold_untouched fetchOut saveOut now
        (normalizeSubscribeURLs urls) st u
        (fun v _ hveq => hveq ▸ hu)
      cases lastRunOk <;> simpa using hfold
    exact ⟨by rw [hout], by rw [hout]; exact hfail, by rw [hout]; exact hsucc,
      huntouched, hzero⟩

/-- Example fetch oracle: the second URL fails, the others fetch zero
nodes. -/
def exFetch : String → Except String (List ProxyNode) :=
  fun u => if u = "u2" then Except.error "boom" else Except.ok []

/-- Example save oracle: every write succeeds. -/
def exSave : String → Option String := fun _ => none

/-- Witness for C3: three URLs with one failing fetch report
`total 3, failed 1, success 2`. -/
theorem refresh_batch_witness :
    (refreshProxyCache exFetch exSave true ⟨[], 0⟩ ["u1", "u2", "u3"] 5).1.total = 3 ∧
    (refreshProxyCache exFetch exSave true ⟨[], 0⟩ ["u1", "u2", "u3"] 5).1.failed = 1 ∧
    (refreshProxyCache exFetch exSave true ⟨[], 0⟩ ["u1", "u2", "u3"] 5).1.success = 2 := by
  have hfe : ∀ u e, exFetch u = Except.error e → e ≠ "" := by
    intro u e h
    unfold exFetch at h
    split at h
    · injection h with he
      subst he
      decide
    · exact Except.noConfusion h
  have hse : ∀ u e, exSave u = some e → e ≠ "" :=
    fun u e h => Option.noConfusion h
  obtain ⟨h1, h2, h3, -, -⟩ :=
    refresh_batch_accounting exFetch exSave true ⟨[], 0⟩ ["u1", "u2", "u3"] 5 hfe hse
  refine ⟨?_, ?_, ?_⟩
  · rw [h1]; rfl
  · rw [h2]; rfl
  · rw [h3]; rfl

/-- C10: when the input normalizes to the empty list the refresh returns
`total 0, success 0, failed 0` with an empty item list, performs no cache
write at all and leaves `LastRunAt` unchanged. -/
theorem refresh_empty_noop
    (fetchOut : String → Except String (List ProxyNode))
    (saveOut : String → Option String) (lastRunOk : Bool)
    (st : CacheStore) (urls : List String) (now : Int)
    (h : normalizeSubscribeURLs urls = []) :
    refreshProxyCache fetchOut saveOut lastRunOk st urls now =
      (⟨0, 0, 0, now, []⟩, st, none) := by
  unfold refreshProxyCache
  dsimp only []
  rw [h]
  rfl

/-- Witness for C10 on a list of blank URLs. -/
theorem refresh_empty_noop_witness :
    refreshProxyCache exFetch exSave true ⟨[], 7⟩ ["", "  "] 42 =
      (⟨0, 0, 0, 42, []⟩, ⟨[], 7⟩, none) :=
  refresh_empty_noop exFetch exSave true ⟨[], 7⟩ ["", "  "] 42 (by decide)

/-! ### The scheduler decision (claim C6) -/

/-- C6: the scheduler decision is `false` whenever the configured sources
normalize to the empty list; otherwise `true` when `LastRunAt` is 0 (never
ran); otherwise `true` exactly when at least 24 hours have elapsed.  The
hypothesis `0 ≤ lastRunAt` reflects that the stored value is either the
0 sentinel or a written Unix timestamp. -/
theorem scheduler_decision (urls : List String) (lastRunAt now : Int)
    (h : 0 ≤ lastRunAt) :
    shouldRunDailyRefresh urls lastRunAt now =
      (if (normalizeSubscribeURLs urls).isEmpty then false
       else if lastRunAt = 0 then true
       else decide (now - lastRunAt ≥ 86400)) := by
  unfold shouldRunDailyRefresh
  split
  · rfl
  · by_cases h0 : lastRunAt = 0
    · simp [h0]
    · have hle : ¬lastRunAt ≤ 0 := by omega
      simp [hle, h0]

/-- Witness for C6: one configured source that never ran fires the
refresh. -/
theorem scheduler_decision_witness :
    shouldRunDailyRefresh ["x"] 0 99 =
      (if (normalizeSubscribeURLs ["x"]).isEmpty then false
       else if (0 : Int) = 0 then true
       else decide ((99 : Int) - 0 ≥ 86400)) :=
  scheduler_decision ["x"] 0 99 (by decide)

/-! ### Building from the cache (claim C7) -/

/-- The missing-URL collection loop of `GetProxyCachesByURLs`, applied to
already-normalized URLs, is a filter for absent cache entries. -/
theorem missing_fold_eq_filter (st : CacheStore) :
    ∀ (l : List String) (acc : List String),
      (∀ u ∈ l, trimString u = u ∧ u ≠ "") →
      l.foldl
        (fun acc u =>
          let url := trimString u
          if url = "" then acc
          else
            match lookupEnt st.entries url with
            | some _ => acc
            | none => acc ++ [url]) acc =
      acc ++ l.filter (fun u => (lookupEnt st.entries u).isNone) := by
  intro l
  induction l with
  | nil => intro acc _; simp
  | cons u rest ih =>
    intro acc helem
    rw [List.foldl_cons]
    dsimp only []
    rw [(helem u (by simp)).1, if_neg (helem u (by simp)).2]
    cases hl : lookupEnt st.entries u with
    | some e =>
      rw [ih acc (fun v hv => helem v (by simp [hv])), List.filter_cons]
      simp [hl]
    | none =>
      rw [ih (acc ++ [u]) (fun v hv => helem v (by simp [hv])), List.filter_cons]
      simp [hl]

/-- The two stores a refresh produces under a succeeding and a failing
`LastRunAt` write hold the same cache entries. -/
theorem refresh_entries_lastrun_independent
    (fetchOut : String → Except String (List ProxyNode))
    (saveOut : String → Option String) (st : CacheStore)
    (urls : List String) (now : Int) (b₁ b₂ : Bool) :
    (refreshProxyCache fetchOut saveOut b₁ st urls now).2.1.entries =
      (refreshProxyCache fetchOut saveOut b₂ st urls now).2.1.entries := by
  unfold refreshProxyCache
  dsimp only []
  by_cases h : (normalizeSubscribeURLs urls).isEmpty = true
  · rw [h]
    rfl
  · rw [Bool.eq_false_iff.mpr h]
    cases b₁ <;> cases b₂ <;> rfl

/-- C7: `BuildProxiesFromCache` fetches exactly the normalized URLs that
have no cache entry (at most one refresh pass, and never a fetch for a URL
that already has an entry, however stale); the caller receives the
concatenation, in URL order, of every entry found after that pass; and the
refresh pass's own error (a failing `LastRunAt` store write) is not
propagated — the returned node list is the same whether that write
succeeds or fails. -/
theorem build_from_cache_spec
    (fetchOut : String → Except String (List ProxyNode))
    (saveOut : String → Option String) (lastRunOk : Bool)
    (st : CacheStore) (urls : List String) (now : Int) :
    (buildProxiesFromCache fetchOut saveOut lastRunOk st urls now).2.2 =
      (normalizeSubscribeURLs urls).filter
        (fun u => (lookupEnt st.entries u).isNone) ∧
    (∀ u, (lookupEnt st.entries u).isSome = true →
      u ∉ (buildProxiesFromCache fetchOut saveOut lastRunOk st urls now).2.2) ∧
    (buildProxiesFromCache fetchOut saveOut lastRunOk st urls now).1 =
      (normalizeSubscribeURLs urls).foldl
        (fun acc url =>
          match lookupEnt
              (buildProxiesFromCache fetchOut saveOut lastRunOk st urls now).2.1.entries
              url with
          | none => acc
          | some e => acc ++ e.nodes) [] ∧
    (buildProxiesFromCache fetchOut saveOut true st urls now).1 =
      (buildProxiesFromCache fetchOut saveOut false st urls now).1 := by
  by_cases hemp : (normalizeSubscribeURLs urls).isEmpty = true
  · have hnil := List.isEmpty_iff.mp hemp
    refine ⟨?_, ?_, ?_, ?_⟩ <;> simp [buildProxiesFromCache, hnil]
  · have hne : (normalizeSubscribeURLs urls).isEmpty = false :=
      Bool.eq_false_iff.mpr hemp
    have hmiss : (normalizeSubscribeURLs urls).foldl
        (fun acc u =>
          let url := trimString u
          if url = "" then acc
          else
            match lookupEnt st.entries url with
            | some _ => acc
            | none => acc ++ [url]) [] =
        (normalizeSubscribeURLs urls).filter
          (fun u => (lookupEnt st.entries u).isNone) := by
      simpa using missing_fold_eq_filter st (normalizeSubscribeURLs urls) []
        (normalize_mem urls)
    have hfix : normalizeSubscribeURLs
        ((normalizeSubscribeURLs urls).filter
          (fun u => (lookupEnt st.entries u).isNone)) =
        (normalizeSubscribeURLs urls).filter
          (fun u => (lookupEnt st.entries u).isNone) := by
      apply normalize_fixed
      · intro u hu
        exact normalize_mem urls u (List.mem_of_mem_filter hu)
      · exact (normalize_nodup urls).filter _
    have hbuild : ∀ lrk : Bool,
        buildProxiesFromCache fetchOut saveOut lrk st urls now =
        (let missing := (normalizeSubscribeURLs urls).filter
            (fun u => (lookupEnt st.entries u).isNone)
         let stAfter := if missing.isEmpty then st
           else (refreshProxyCache fetchOut saveOut lrk st missing now).2.1
         ((normalizeSubscribeURLs urls).foldl
            (fun acc url =>
              match lookupEnt stAfter.entries url with
              | none => acc
              | some e => acc ++ e.nodes) [],
          stAfter, missing)) := by
      intro lrk
      unfold buildProxiesFromCache
      dsimp only []
      rw [hne, hmiss]
      by_cases hm : ((normalizeSubscribeURLs urls).filter
          (fun u => (lookupEnt st.entries u).isNone)).isEmpty = true
      · rw [List.isEmpty_iff.mp hm]
        rfl
      · rw [Bool.eq_false_iff.mpr hm]
        unfold refreshFetchSet
        rw [hfix]
        rfl
    refine ⟨?_, ?_, ?_, ?_⟩
    · rw [hbuild lastRunOk]
    · intro u hu hmem
      rw [hbuild lastRunOk] at hmem
      have hmem' : u ∈ (normalizeSubscribeURLs urls).filter
          (fun v => (lookupEnt st.entries v).isNone) := hmem
      have := (List.mem_filter.mp hmem').2
      rw [Option.isSome_iff_exists] at hu
      obtain ⟨e, he⟩ := hu
      rw [he] at this
      simp at this
    · rw [hbuild lastRunOk]
    · rw [hbuild true, hbuild false]
      dsimp only []
      by_cases hm : ((normalizeSubscribeURLs urls).filter
          (fun u => (lookupEnt st.entries u).isNone)).isEmpty = true
      · rw [hm]
        rfl
      · rw [Bool.eq_false_iff.mpr hm]
        simp only [Bool.false_eq_true, if_false]
        rw [refresh_entries_lastrun_independent fetchOut saveOut st _ now true false]

/-- Witness for C7: with one cached URL and one missing URL, only the
missing URL is fetched and the cached URL is never in the fetch set. -/
theorem build_from_cache_witness :
    (buildProxiesFromCache exFetch exSave true
      ⟨[("c1", ⟨[], 1⟩)], 0⟩ ["c1", "u1"] 9).2.2 =
      (normalizeSubscribeURLs ["c1", "u1"]).filter
        (fun u => (lookupEnt [("c1", ⟨[], 1⟩)] u).isNone) ∧
    "c1" ∉ (buildProxiesFromCache exFetch exSave true
      ⟨[("c1", ⟨[], 1⟩)], 0⟩ ["c1", "u1"] 9).2.2 := by
  have h := build_from_cache_spec exFetch exSave true
    ⟨[("c1", ⟨[], 1⟩)], 0⟩ ["c1", "u1"] 9
  exact ⟨h.1, h.2.1 "c1" (by rfl)⟩

end StashRule
